import Mathlib

set_option maxRecDepth 8000

/-
Verification of the two EDA utilities of the `ogman` repository:
`src/ogman/eda/columns.py` (`clean_columns`) and `src/ogman/eda/summary.py`
(`summarize_df`).

Modelling conventions.
* A Python `str` is modelled as a `List Char` (`Str`).  Column labels are the
  string-coerced flat labels (`cols_in = list(map(str, df.columns))` in the
  source; for a flat column index `orig` and `raw` in the source's zip are the
  same string, which is what the model uses).  The MultiIndex flattening step
  happens before this list is formed and is not needed by any claim.
* The character-class tests of the source's regexes (`[A-Z]`, `[a-z0-9]`,
  `\s`, `[^a-z0-9_]`) are ASCII classes and are modelled on `Char.toNat`.
  `unicodedata.normalize('NFKD', s)` together with the `combining` filter is
  modelled by a finite decomposition table for accented Latin letters
  (identity elsewhere); `str.lower`/`str.strip` are modelled on the ASCII
  fragment.  All theorems below evaluate these functions only on characters
  where the model agrees with CPython.
* Python `while` loops are modelled by structurally recursive functions with
  an explicit fuel argument, so that everything kernel-evaluates; the fuel
  bounds are large enough that the model agrees with the (terminating)
  Python loop, which is proved where a theorem depends on it
  (`resolveUniqueGo_not_mem` below).
* Python's insertion-ordered `dict` is an association list with
  position-preserving update (`updAssoc`); the `used` set is a list queried
  only through membership.
* Numeric values in `summarize_df` are modelled by `ℚ`, and pandas `NaN`
  results (mean of an empty column, division by a zero row count) by
  `Option ℚ` with `none` for NaN.  `Series.round(2)` is round-half-even on
  the exact rational, mirroring IEEE rounding on exactly representable
  inputs.
-/

/-- Python strings, modelled as lists of characters. -/
abbrev Str := List Char

/-- ASCII `[a-z]`, as used by the source's regexes. -/
def isLowerAZ (c : Char) : Bool := 97 ≤ c.toNat && c.toNat ≤ 122

/-- ASCII `[A-Z]`. -/
def isUpperAZ (c : Char) : Bool := 65 ≤ c.toNat && c.toNat ≤ 90

/-- ASCII `[0-9]` (also models `str.isdigit` on the post-sanitize alphabet). -/
def isDigitCh (c : Char) : Bool := 48 ≤ c.toNat && c.toNat ≤ 57

/-- The class `[a-z0-9_]` kept by the sanitize step. -/
def isWordCh (c : Char) : Bool := isLowerAZ c || isDigitCh c || c = '_'

/-- ASCII whitespace, the `\s` class (space, tab, LF, VT, FF, CR). -/
def isSpaceCh (c : Char) : Bool := c.toNat = 32 || (9 ≤ c.toNat && c.toNat ≤ 13)

/-- Underscore test, the `_+` class of the collapse step. -/
def isUndCh (c : Char) : Bool := c = '_'

/-- NFKD decompositions of the accented Latin letters the model covers
(base letter followed by a combining mark); all other characters decompose
to themselves.  Models `unicodedata.normalize('NFKD', ·)` per character. -/
def nfkdTable : List (Char × Str) :=
  [ ('á', ['a', '́']), ('à', ['a', '̀']), ('â', ['a', '̂']),
    ('ä', ['a', '̈']), ('ã', ['a', '̃']),
    ('é', ['e', '́']), ('è', ['e', '̀']), ('ê', ['e', '̂']),
    ('ë', ['e', '̈']),
    ('í', ['i', '́']), ('ì', ['i', '̀']), ('î', ['i', '̂']),
    ('ï', ['i', '̈']),
    ('ó', ['o', '́']), ('ò', ['o', '̀']), ('ô', ['o', '̂']),
    ('ö', ['o', '̈']), ('õ', ['o', '̃']),
    ('ú', ['u', '́']), ('ù', ['u', '̀']), ('û', ['u', '̂']),
    ('ü', ['u', '̈']),
    ('ñ', ['n', '̃']), ('ç', ['c', '̧']),
    ('Á', ['A', '́']), ('É', ['E', '́']), ('Í', ['I', '́']),
    ('Ó', ['O', '́']), ('Ú', ['U', '́']),
    ('Ä', ['A', '̈']), ('Ö', ['O', '̈']), ('Ü', ['U', '̈']),
    ('Ñ', ['N', '̃']), ('Ç', ['C', '̧']) ]

/-- Per-character NFKD decomposition (identity off the table). -/
def nfkdChar (c : Char) : Str :=
  match nfkdTable.find? (fun e => e.1 = c) with
  | some e => e.2
  | none => [c]

/-- `unicodedata.combining(c) != 0`, restricted to the combining diacritical
marks block U+0300–U+036F produced by `nfkdTable`. -/
def isCombining (c : Char) : Bool := 768 ≤ c.toNat && c.toNat ≤ 879

/-- `deaccent` from `clean_columns` (columns.py lines 57-61): NFKD-normalize
and drop combining marks. -/
def deaccent (s : Str) : Str :=
  ((s.map nfkdChar).flatten).filter (fun c => !isCombining c)

/-- Remove trailing characters satisfying `p`. -/
def dropTrailing (p : Char → Bool) (s : Str) : Str :=
  (s.reverse.dropWhile p).reverse

/-- Python `str.strip()` (ASCII whitespace fragment). -/
def pyStrip (s : Str) : Str := dropTrailing isSpaceCh (s.dropWhile isSpaceCh)

/-- Python `str.strip('_')`. -/
def stripUnd (s : Str) : Str := dropTrailing isUndCh (s.dropWhile isUndCh)

/-- Head-is-lowercase test used by the first camel-case regex. -/
def headIsLower : Str → Bool
  | [] => false
  | c :: _ => isLowerAZ c

/-- `re.sub(r'(.)([A-Z][a-z]+)', r'\1_\2', s)`: left-to-right, non-overlapping
replacement; `.` matches anything but a newline, `[a-z]+` is greedy, and the
scan resumes after each match.  The fuel argument makes the recursion
structural; `camel1` supplies fuel `s.length`, which is enough since every
step consumes at least one character. -/
def camel1F : Nat → Str → Str
  | 0, s => s
  | _ + 1, [] => []
  | _ + 1, [c] => [c]
  | fuel + 1, c1 :: c2 :: rest =>
    if c1 != '\n' && isUpperAZ c2 && headIsLower rest then
      c1 :: '_' :: c2 :: (rest.takeWhile isLowerAZ ++ camel1F fuel (rest.dropWhile isLowerAZ))
    else
      c1 :: camel1F fuel (c2 :: rest)

/-- First camel-case split of `to_snake` (columns.py line 66). -/
def camel1 (s : Str) : Str := camel1F s.length s

/-- `re.sub(r'([a-z0-9])([A-Z])', r'\1_\2', s)` (columns.py line 67); the
scan resumes after the two matched characters. -/
def camel2 : Str → Str
  | [] => []
  | [c] => [c]
  | c1 :: c2 :: rest =>
    if (isLowerAZ c1 || isDigitCh c1) && isUpperAZ c2 then
      c1 :: '_' :: c2 :: camel2 rest
    else
      c1 :: camel2 (c2 :: rest)

/-- `s.replace('-', '_').replace('/', '_')` per character. -/
def replCh (c : Char) : Char := if c = '-' || c = '/' then '_' else c

/-- Python `str.lower` on the ASCII fragment. -/
def lowerCh (c : Char) : Char :=
  if 65 ≤ c.toNat && c.toNat ≤ 90 then Char.ofNat (c.toNat + 32) else c

/-- `re.sub(r'X+', '_', s)` for a character class `p`: every maximal run of
`p`-characters is replaced by a single underscore.  The boolean argument
records whether the previous character was inside a run. -/
def subRuns (p : Char → Bool) : Bool → Str → Str
  | _, [] => []
  | inRun, c :: rest =>
    if p c then
      (if inRun then subRuns p true rest else '_' :: subRuns p true rest)
    else
      c :: subRuns p false rest

/-- `to_snake` from `clean_columns` (columns.py lines 63-77).  `dp` is the
`digit_prefix` argument (default `"col_"`). -/
def to_snake (dp : Str) (s : Str) : Str :=
  let s1 := pyStrip (deaccent s)
  let s2 := camel2 (camel1 s1)
  let s3 := s2.map replCh
  let s4 := subRuns isSpaceCh false s3
  let s5 := s4.map lowerCh
  let s6 := s5.filter isWordCh
  let s7 := stripUnd (subRuns isUndCh false s6)
  let s8 := if s7 = [] then "col".data else s7
  match s8 with
  | [] => s8
  | c :: _ => if isDigitCh c then dp ++ s8 else s8

/-- `shorten` from `clean_columns` (columns.py lines 79-83): truncate only
when the name already exceeds `max_len`, keeping room `keep` for a suffix
but never cutting below one character.  Python's `int` can be negative;
a negative `max_len` behaves like `0` here (both truncate everything
nonempty to one character, and `shorten` is only applied to nonempty
names). -/
def shorten (max_len : Option Nat) (name : Str) (keep : Nat) : Str :=
  match max_len with
  | none => name
  | some m => if name.length ≤ m then name else name.take (max 1 (m - keep))

/-- Decimal digit to character. -/
def digitCh (d : Nat) : Char :=
  match d with
  | 0 => '0' | 1 => '1' | 2 => '2' | 3 => '3' | 4 => '4'
  | 5 => '5' | 6 => '6' | 7 => '7' | 8 => '8' | _ => '9'

/-- Little-endian decimal digits of `n` (fuel-structural; fuel `n + 1` is
always enough since the argument at least halves each step). -/
def natDigitsAux : Nat → Nat → Str
  | 0, _ => []
  | _ + 1, 0 => []
  | fuel + 1, n + 1 => digitCh ((n + 1) % 10) :: natDigitsAux fuel ((n + 1) / 10)

/-- Python `str(n)` for a natural number: decimal notation. -/
def natToStr (n : Nat) : Str :=
  if n = 0 then ['0'] else (natDigitsAux (n + 1) n).reverse

/-- The disambiguation suffix `f"_{i}"` of the uniqueness loop. -/
def sfx (i : Nat) : Str := '_' :: natToStr i

/-- The candidate produced by one iteration of the uniqueness loop
(columns.py lines 109-111): `shorten(base, keep_for_suffix=len(suf)) + suf`. -/
def candidate (m : Option Nat) (base : Str) (i : Nat) : Str :=
  shorten m base (sfx i).length ++ sfx i

/-- Fuel-driven form of `while s in reserved: s = s + conflict_suffix`
(columns.py lines 105-107; `base` is updated to `s` each iteration, so the
suffix accumulates on the running string). -/
def resolveReservedGo (rv : List Str) (cs : Str) : Nat → Str → Str
  | 0, s => s
  | fuel + 1, s => if s ∈ rv then resolveReservedGo rv cs fuel (s ++ cs) else s

/-- The reserved-name resolution loop.  With a nonempty `conflict_suffix`
the Python loop visits pairwise distinct strings (their lengths strictly
grow), of which at most `rv.length` can lie in `rv`, so fuel
`rv.length + 1` makes the model agree with the loop. -/
def resolveReserved (rv : List Str) (cs : Str) (s : Str) : Str :=
  resolveReservedGo rv cs (rv.length + 1) s

/-- Fuel-driven form of the uniqueness loop
`i = 2; while s in used: s = shorten(base, len(suf)) + suf; i += 1`
(columns.py lines 108-112). -/
def resolveUniqueGo (used : List Str) (m : Option Nat) (base : Str) :
    Nat → Str → Nat → Str
  | 0, s, _ => s
  | fuel + 1, s, i =>
    if s ∈ used then resolveUniqueGo used m base fuel (candidate m base i) (i + 1) else s

/-- The uniqueness loop.  Candidates for distinct `i` are pairwise distinct
(`candidate_injective` below), so among the first `used.length + 1` of them
one is free and fuel `used.length + 2` makes the model agree with the
Python loop (`resolveUnique_not_mem` below). -/
def resolveUnique (used : List Str) (m : Option Nat) (base : Str) : Str :=
  resolveUniqueGo used m base (used.length + 2) base 2

/-- First-match lookup in an association list (Python `dict` access). -/
def lookupAssoc : List (Str × Str) → Str → Option Str
  | [], _ => none
  | (k, v) :: rest, x => if k = x then some v else lookupAssoc rest x

/-- Python `k in dict`. -/
def hasKey (m : List (Str × Str)) (k : Str) : Bool := (lookupAssoc m k).isSome

/-- Python `dict[k] = v`: replace the value at an existing key in place,
otherwise append the new pair at the end (insertion order). -/
def updAssoc : List (Str × Str) → Str → Str → List (Str × Str)
  | [], k, v => [(k, v)]
  | (k', v') :: rest, k, v =>
    if k' = k then (k, v) :: rest else (k', v') :: updAssoc rest k v

/-- Keys of a mapping, in insertion order. -/
def keysOf (m : List (Str × Str)) : List Str := m.map Prod.fst

/-- Values of a mapping, in insertion order. -/
def valsOf (m : List (Str × Str)) : List Str := m.map Prod.snd

/-- State threaded through the base cleaning pass of `clean_columns`:
the original→cleaned `mapping` and the `used` set of final names. -/
structure CleanState where
  mapping : List (Str × Str)
  used : List Str

/-- The reserved set: `{"index", "columns"}` plus `extra_reserved`
(columns.py lines 101-103). -/
def reservedList (er : List Str) : List Str :=
  "index".data :: "columns".data :: er

/-- One iteration of the base cleaning loop of `clean_columns`
(columns.py lines 104-114): snake-case, resolve against the reserved set,
apply the length cap, resolve against the used set, then record the
mapping entry and mark the name used. -/
def cleanStep (rv : List Str) (cs dp : Str) (m : Option Nat)
    (st : CleanState) (label : Str) : CleanState :=
  let s1 := to_snake dp label
  let s2 := resolveReserved rv cs s1
  let s3 := shorten m s2 0
  let s4 := resolveUnique st.used m s3
  { mapping := updAssoc st.mapping label s4, used := s4 :: st.used }

/-- State threaded through the override pass: the evolving `mapping` and
`used` set plus the `cleaned_over` rename dictionary.  (The source also
builds an inverse map `inv` that it never uses; it is omitted.) -/
structure OverState where
  mapping : List (Str × Str)
  used : List Str
  cleanedOver : List (Str × Str)

/-- One iteration of the override loop (columns.py lines 119-136): the
column's current name defaults to `to_snake(orig_name)` when the key is
absent from the mapping; the wanted name is snake-cased, resolved against
the reserved set and against `used - {current}`, always added to `used`
and to `cleaned_over`, and written back to `mapping` only for a present
key. -/
def overrideStep (rv : List Str) (cs dp : Str) (m : Option Nat)
    (st : OverState) (ov : Str × Str) : OverState :=
  let current := (lookupAssoc st.mapping ov.1).getD (to_snake dp ov.1)
  let v1 := to_snake dp ov.2
  let v2 := resolveReserved rv cs v1
  let v3 := resolveUnique (st.used.filter (fun u => u ≠ current)) m v2
  { mapping := if hasKey st.mapping ov.1 then updAssoc st.mapping ov.1 v3 else st.mapping,
    used := v3 :: st.used,
    cleanedOver := updAssoc st.cleanedOver current v3 }

/-- Result of `clean_columns`: the relabelled table (its column labels, in
order) and the original→cleaned mapping (the source returns both when
`return_mapping=True`; `save_map_to` is an I/O side effect outside the
model). -/
structure CleanResult where
  table : List Str
  mapping : List (Str × Str)

/-- `clean_columns` (columns.py lines 97-139) on the string-coerced flat
column labels: the base cleaning pass, the `df.rename(columns=mapping)`
relabelling, then the override pass and the final
`df2.rename(columns=cleaned_over)`.  An empty `overrides` list makes the
override pass a no-op, matching the source's `if overrides:` guard. -/
def clean_columns (labels : List Str) (overrides : List (Str × Str))
    (dp cs : Str) (max_len : Option Nat) (er : List Str) : CleanResult :=
  let rv := reservedList er
  let bp := labels.foldl (cleanStep rv cs dp max_len) ⟨[], []⟩
  let t1 := labels.map (fun l => (lookupAssoc bp.mapping l).getD l)
  let ost := overrides.foldl (overrideStep rv cs dp max_len) ⟨bp.mapping, bp.used, []⟩
  { table := t1.map (fun l => (lookupAssoc ost.cleanedOver l).getD l),
    mapping := ost.mapping }

/-- `clean_columns` with every optional argument at its source default
(`digit_prefix="col_"`, `conflict_suffix="_col"`, `max_len=None`,
`extra_reserved=None`, `overrides=None`). -/
def clean_columns_default (labels : List Str) : CleanResult :=
  clean_columns labels [] "col_".data "_col".data none []

/-
Model of `summarize_df` (summary.py).  The claims under scrutiny are all
per-column statements, so the model is a family of per-column statistics;
`n_rows = len(df)` equals the column's length.  `NaN` outcomes are `none`.
-/

/-- pandas dtypes used by `summarize_df`'s type predicates. -/
inductive Dtype
  | int64
  | float64
  | bool
  | datetime64
  | object
  | category
deriving DecidableEq

/-- `pd.api.types.is_numeric_dtype`: true for integer, float and bool
dtypes (pandas counts plain and nullable booleans as numeric). -/
def is_numeric_dtype : Dtype → Bool
  | .int64 => true
  | .float64 => true
  | .bool => true
  | _ => false

/-- `pd.api.types.is_bool_dtype`. -/
def is_bool_dtype : Dtype → Bool
  | .bool => true
  | _ => false

/-- `pd.api.types.is_datetime64_any_dtype`. -/
def is_datetime64_any_dtype : Dtype → Bool
  | .datetime64 => true
  | _ => false

/-- `pd.api.types.is_object_dtype`. -/
def is_object_dtype : Dtype → Bool
  | .object => true
  | _ => false

/-- `s.nunique(dropna=False)` (summary.py line 33): number of distinct
values with all missing entries counted as one extra value. -/
def nunique {α : Type} [DecidableEq α] (col : List (Option α)) : Nat :=
  col.dedup.length

/-- `s.nunique(dropna=True)` as used by `logical_type` (summary.py line 53):
distinct non-null values. -/
def nuniqueDropna {α : Type} [DecidableEq α] (col : List (Option α)) : Nat :=
  (col.filterMap id).dedup.length

/-- `df.isna().sum()` per column (summary.py line 34). -/
def missingCount {α : Type} (col : List (Option α)) : Nat :=
  (col.filter (fun v => v.isNone)).length

/-- Round-half-even to an integer, the rounding of IEEE/pandas `round`. -/
def roundHalfEven (q : ℚ) : ℤ :=
  let f := ⌊q⌋
  let r := q - (f : ℚ)
  if r < 1 / 2 then f
  else if 1 / 2 < r then f + 1
  else if Even f then f else f + 1

/-- `Series.round(2)` on an exact rational. -/
def round2 (q : ℚ) : ℚ := (roundHalfEven (q * 100) : ℚ) / 100

/-- `missing [%]`: `(df.isna().mean() * 100).round(2)` (summary.py line 35).
pandas' mean of an empty column is NaN (`none`): there is no zero-row
guard in the source. -/
def missing_pct {α : Type} (col : List (Option α)) : Option ℚ :=
  if col.length = 0 then none
  else some (round2 ((missingCount col : ℚ) / (col.length : ℚ) * 100))

/-- `df[c].duplicated(keep=False).sum()` (summary.py line 38): every
occurrence of a value appearing more than once counts, with missing
entries compared equal to each other (as pandas `duplicated` does). -/
def dupCount {α : Type} [DecidableEq α] (col : List (Option α)) : Nat :=
  (col.filter (fun v => 2 ≤ col.count v)).length

/-- `duplicates [%]`: `(dup_counts / n_rows * 100).round(2)` (summary.py
line 39).  With zero rows pandas evaluates `0 / 0`, which is NaN
(`none`): again no guard in the source. -/
def duplicates_pct {α : Type} [DecidableEq α] (col : List (Option α)) : Option ℚ :=
  if col.length = 0 then none
  else some (round2 ((dupCount col : ℚ) / (col.length : ℚ) * 100))

/-- `logical_type` (summary.py lines 45-54): the ordered predicate chain
numeric → boolean → datetime → object (categorical/text by distinct
non-null count) → other. -/
def logical_type {α : Type} [DecidableEq α] (dt : Dtype) (col : List (Option α)) : String :=
  if is_numeric_dtype dt then "numeric"
  else if is_bool_dtype dt then "boolean"
  else if is_datetime64_any_dtype dt then "datetime"
  else if is_object_dtype dt then
    (if nuniqueDropna col ≤ 10 then "categorical" else "text")
  else "other"

/-- The non-null values of a column, in order (`skipna` aggregates). -/
def nonNull {α : Type} (col : List (Option α)) : List α := col.filterMap id

/-- `num_cols.min()` per numeric column (summary.py line 61): minimum of
the non-null values, NaN (`none`) when there are none. -/
def colMin (col : List (Option ℚ)) : Option ℚ :=
  match nonNull col with
  | [] => none
  | x :: xs => some (xs.foldl min x)

/-- `num_cols.max()` per numeric column (summary.py line 62). -/
def colMax (col : List (Option ℚ)) : Option ℚ :=
  match nonNull col with
  | [] => none
  | x :: xs => some (xs.foldl max x)

/-- `num_cols.mean().round(2)` per numeric column (summary.py line 63):
mean over the non-null values, rounded to two decimals, NaN (`none`)
when there are none. -/
def colMean (col : List (Option ℚ)) : Option ℚ :=
  match nonNull col with
  | [] => none
  | x :: xs => some (round2 ((x :: xs).sum / ((x :: xs).length : ℚ)))

/-- Little-endian decimal decoding, inverse to `natDigitsAux`. -/
def decodeDigits : Str → Nat
  | [] => 0
  | c :: r => (c.toNat - 48) + 10 * decodeDigits r

/-- Invariant of the base pass: mapping keys and values are duplicate-free
and every value has been marked used. -/
structure MapInv (st : CleanState) : Prop where
  keys_nodup : (keysOf st.mapping).Nodup
  vals_nodup : (valsOf st.mapping).Nodup
  vals_used : ∀ v ∈ valsOf st.mapping, v ∈ st.used

/-- The column's current name in the override loop:
`mapping.get(orig_name, to_snake(orig_name))`. -/
def ovCurrent (dp : Str) (st : OverState) (ov : Str × Str) : Str :=
  (lookupAssoc st.mapping ov.1).getD (to_snake dp ov.1)

/-- The resolved override target: the wanted name snake-cased, passed
through the reserved loop, then made unique against `used - {current}`. -/
def ovResolved (rv : List Str) (cs dp : Str) (m : Option Nat)
    (st : OverState) (ov : Str × Str) : Str :=
  resolveUnique (st.used.filter (fun u => u ≠ ovCurrent dp st ov)) m
    (resolveReserved rv cs (to_snake dp ov.2))

/-- Invariant of the override pass, relative to the list `B` of column
labels of the base-renamed table: mapping keys/values stay duplicate-free
and used; every base label is used; `cleaned_over` has duplicate-free keys,
its values are used, a value that is a base label can only be the entry's
own key, and two entries at different keys share a value only if one of
them maps its key to itself. -/
structure OverInv (B : List Str) (st : OverState) : Prop where
  keys_nodup : (keysOf st.mapping).Nodup
  vals_nodup : (valsOf st.mapping).Nodup
  vals_used : ∀ v ∈ valsOf st.mapping, v ∈ st.used
  b_used : ∀ b ∈ B, b ∈ st.used
  co_keys_nodup : (keysOf st.cleanedOver).Nodup
  co_vals_used : ∀ e ∈ st.cleanedOver, e.2 ∈ st.used
  co_vals_b : ∀ e ∈ st.cleanedOver, e.2 ∈ B → e.2 = e.1
  co_pair : ∀ e1 ∈ st.cleanedOver, ∀ e2 ∈ st.cleanedOver,
      e1.1 ≠ e2.1 → e1.2 = e2.2 → (e1.2 = e1.1 ∨ e2.2 = e2.1)

/-- The base cleaning pass of `clean_columns`, from the empty state. -/
def basePass (labels : List Str) (dp cs : Str) (m : Option Nat) (er : List Str) : CleanState :=
  labels.foldl (cleanStep (reservedList er) cs dp m) ⟨[], []⟩

/-- The override pass of `clean_columns`, from the base pass's state. -/
def overridePass (labels : List Str) (overrides : List (Str × Str))
    (dp cs : Str) (m : Option Nat) (er : List Str) : OverState :=
  overrides.foldl (overrideStep (reservedList er) cs dp m)
    ⟨(basePass labels dp cs m er).mapping, (basePass labels dp cs m er).used, []⟩

/-- The base-pass candidate of a column before uniqueness resolution:
snake-cased, reserved-resolved, length-capped.  When these candidates are
pairwise distinct the uniqueness loop never fires. -/
def base_candidate (er : List Str) (cs dp : Str) (m : Option Nat) (l : Str) : Str :=
  shorten m (resolveReserved (reservedList er) cs (to_snake dp l)) 0

/-- No two consecutive underscores. -/
def noDoubleUnd : Str → Bool
  | c1 :: c2 :: rest => !(c1 == '_' && c2 == '_') && noDoubleUnd (c2 :: rest)
  | _ => true

/-- First character is an underscore. -/
def headIsUnd : Str → Bool
  | c :: _ => c == '_'
  | [] => false

/-- Nonempty with a first character that is neither a digit nor an
underscore. -/
def headOk : Str → Bool
  | [] => false
  | c :: _ => !isDigitCh c && !(c == '_')

/-- Nonempty with a last character that is not an underscore. -/
def lastOk (s : Str) : Bool :=
  match s.getLast? with
  | none => false
  | some c => !(c == '_')

/-- An already-normalized label: nonempty, over `[a-z0-9_]`, no leading
digit, no leading, trailing or repeated underscore. -/
def Normalized (s : Str) : Prop :=
  (∀ c ∈ s, isWordCh c = true) ∧ headOk s = true ∧ lastOk s = true ∧
    noDoubleUnd s = true

instance (s : Str) : Decidable (Normalized s) := by
  unfold Normalized
  infer_instance

/-
Helper lemmas shared by several theorems below.
-/

theorem roundHalfEven_intCast (n : ℤ) : roundHalfEven (n : ℚ) = n := by
  unfold roundHalfEven
  norm_num

theorem round2_eq (q : ℚ) (n : ℤ) (h : q * 100 = (n : ℚ)) : round2 q = (n : ℚ) / 100 := by
  unfold round2
  rw [h, roundHalfEven_intCast]

/-
C1. The claim asserts one mapping entry per input column even when raw
labels repeat.  The mapping is a Python dict keyed by the string-coerced
original label, so repeated labels overwrite a single entry.
-/

/-- C1 counterexample: two columns both labelled `"a"` produce a mapping
with a single entry (whose value is the cleaned name of the second
column), not one entry per input column. -/
theorem clean_columns_dup_label_single_entry :
    ["a".data, "a".data].length = 2 ∧
    (clean_columns_default ["a".data, "a".data]).mapping = [("a".data, "a_2".data)] ∧
    (clean_columns_default ["a".data, "a".data]).mapping.length = 1 := by
  refine ⟨rfl, by decide, by decide⟩

/-
C2. The claim asserts pairwise distinct output table labels even when raw
labels repeat.  `df.rename(columns=mapping)` maps every occurrence of a
repeated label to the same final name.
-/

/-- C2 counterexample: with repeated raw labels the returned table has
repeated column labels (both `"a"` columns are renamed to `"a_2"`). -/
theorem clean_columns_dup_label_table_dup :
    (clean_columns_default ["a".data, "a".data]).table = ["a_2".data, "a_2".data] ∧
    ¬ (clean_columns_default ["a".data, "a".data]).table.Nodup := by
  refine ⟨by decide, by decide⟩

/-
C3. The claim asserts reserved-avoidance for every `max_len`.  Truncation
happens after the reserved-resolution loop, so a length cap can cut a
resolved name back to a reserved word.
-/

/-- C3 counterexample: the column `"index"` with `max_len=5` is resolved to
`"index_col"` and then truncated right back to the reserved word
`"index"`, which is the final label on the table and in the mapping. -/
theorem clean_columns_max_len_reserved_cex :
    (clean_columns ["index".data] [] "col_".data "_col".data (some 5) []).table
      = ["index".data] ∧
    (clean_columns ["index".data] [] "col_".data "_col".data (some 5) []).mapping
      = [("index".data, "index".data)] ∧
    "index".data ∈ reservedList [] := by
  refine ⟨by decide, by decide, by decide⟩

/-
C4. The claim asserts that no final label exceeds `max_len`.  `shorten`
only truncates a base that itself exceeds `max_len`, so a base that fits
gains an untruncated disambiguation suffix.
-/

/-- C4 counterexample: `["ab", "ab"]` with `max_len=3`: the second column's
base `"ab"` fits within 3, so `shorten` leaves it alone and the suffixed
final label `"ab_2"` has length 4 > 3. -/
theorem clean_columns_max_len_exceeded_cex :
    (clean_columns ["ab".data, "ab".data] [] "col_".data "_col".data (some 3) []).mapping
      = [("ab".data, "ab_2".data)] ∧
    "ab_2".data ∈ (clean_columns ["ab".data, "ab".data] [] "col_".data "_col".data (some 3) []).table ∧
    3 < "ab_2".data.length := by
  refine ⟨by decide, by decide, by decide⟩

/-
C5. The claim asserts that an override whose key is absent from the table
is a complete no-op.  The override pass still computes
`current = to_snake(key)` for an absent key and records
`cleaned_over[current] = resolved`, so it can rename a column whose
cleaned name happens to equal `to_snake(key)`.
-/

/-- C5 counterexample: the override `{"A": "b"}` names no column of the
table `["a"]` (its original labels contain only `"a"`), yet the returned
table differs from the override-free result: the column is renamed to
`"b"` while the mapping still records `"a" → "a"`. -/
theorem clean_columns_absent_override_cex :
    "A".data ∉ ["a".data] ∧
    (clean_columns ["a".data] [("A".data, "b".data)] "col_".data "_col".data none []).table
      = ["b".data] ∧
    (clean_columns ["a".data] [] "col_".data "_col".data none []).table = ["a".data] ∧
    (clean_columns ["a".data] [("A".data, "b".data)] "col_".data "_col".data none []).mapping
      = [("a".data, "a".data)] := by
  refine ⟨by decide, by decide, by decide, by decide⟩

/-
C6. `summarize_df` has no zero-row guard: `df.isna().mean()` over an empty
column and `dup_counts / n_rows` with `n_rows = 0` both evaluate to NaN in
pandas, while the spec requires the percentages to be 0 there.
-/

/-- C6: evaluating the percentage columns of `summarize_df` on a zero-row
column yields NaN (`none`), not 0: the claimed zero-row guard does not
exist in the code. -/
theorem summarize_zero_rows_nan :
    missing_pct ([] : List (Option ℚ)) = none ∧
    duplicates_pct ([] : List (Option ℚ)) = none := by
  exact ⟨rfl, rfl⟩

/-
C7. `logical_type` tests `is_numeric_dtype` first, and pandas counts bool
dtypes as numeric, so a boolean column is classified `"numeric"`; the
`elif is_bool_dtype` branch is unreachable for the standard bool dtype.
-/

/-- C7 counterexample: a boolean-dtype column is assigned `logical_type`
`"numeric"`, not `"boolean"` as the claim states. -/
theorem logical_type_bool_is_numeric_cex :
    logical_type Dtype.bool ([some true, some false] : List (Option Bool)) = "numeric" ∧
    logical_type Dtype.bool ([some true, some false] : List (Option Bool)) ≠ "boolean" := by
  refine ⟨rfl, by decide⟩

/-- C7 amended: the decision list as implemented.  Numeric dtypes —
including bool, which pandas' `is_numeric_dtype` accepts — yield
`"numeric"` (so the `"boolean"` branch never fires for the dtypes
modelled); datetime yields `"datetime"`; object-dtype columns yield
`"categorical"` when the distinct non-null value count is at most 10 and
`"text"` otherwise; anything else yields `"other"`. -/
theorem logical_type_decision {α : Type} [DecidableEq α] (dt : Dtype) (col : List (Option α)) :
    logical_type dt col =
      match dt with
      | .int64 => "numeric"
      | .float64 => "numeric"
      | .bool => "numeric"
      | .datetime64 => "datetime"
      | .object => if nuniqueDropna col ≤ 10 then "categorical" else "text"
      | .category => "other" := by
  cases dt <;> rfl

/-
C8. The spec's numeric scenario, evaluated on the model.
-/

/-- C8: profiling the 5-value numeric column `[1, 1, 2, None, 3]` gives
`nunique = 4` (missing counted), `missing = 1`, `missing_pct = 20.0`,
`duplicates = 2`, `duplicates_pct = 40.0`, `logical_type = "numeric"`,
`min = 1`, `max = 3`, `mean = 1.75`. -/
theorem summarize_numeric_scenario :
    nunique [some 1, some 1, some 2, none, some (3 : ℚ)] = 4 ∧
    missingCount [some 1, some 1, some 2, none, some (3 : ℚ)] = 1 ∧
    missing_pct [some 1, some 1, some 2, none, some (3 : ℚ)] = some 20 ∧
    dupCount [some 1, some 1, some 2, none, some (3 : ℚ)] = 2 ∧
    duplicates_pct [some 1, some 1, some 2, none, some (3 : ℚ)] = some 40 ∧
    logical_type Dtype.float64 [some 1, some 1, some 2, none, some (3 : ℚ)] = "numeric" ∧
    colMin [some 1, some 1, some 2, none, some (3 : ℚ)] = some 1 ∧
    colMax [some 1, some 1, some 2, none, some (3 : ℚ)] = some 3 ∧
    colMean [some 1, some 1, some 2, none, some (3 : ℚ)] = some 1.75 := by
  refine ⟨by decide, by decide, ?_, by decide, ?_, rfl, ?_, ?_, ?_⟩
  · norm_num [missing_pct, missingCount]
    rw [round2_eq 20 2000 (by norm_num)]
    norm_num
  · have hd : dupCount [some 1, some 1, some 2, none, some (3 : ℚ)] = 2 := by decide
    norm_num [duplicates_pct, hd]
    rw [round2_eq 40 4000 (by norm_num)]
    norm_num
  · simp [colMin, nonNull]
  · simp [colMax, nonNull]
    norm_num
  · simp only [colMean, nonNull, List.filterMap]
    norm_num
    rw [round2_eq (7 / 4) 175 (by norm_num)]
    norm_num

/-
C10. An all-null object column has distinct non-null count 0 ≤ 10, hence
is classified `"categorical"` whatever its length.
-/

/-- C10: every object-dtype column whose values are all missing is
assigned `logical_type` `"categorical"` (never `"text"`), regardless of
its length. -/
theorem logical_type_allnull_categorical {α : Type} [DecidableEq α]
    (col : List (Option α)) (h : ∀ v ∈ col, v = none) :
    logical_type Dtype.object col = "categorical" := by
  have hnil : col.filterMap id = [] := by
    rw [List.filterMap_eq_nil_iff]
    intro a ha
    simpa using h a ha
  have h0 : nuniqueDropna col = 0 := by
    unfold nuniqueDropna
    rw [hnil]
    rfl
  simp [logical_type, is_numeric_dtype, is_bool_dtype, is_datetime64_any_dtype,
    is_object_dtype, h0]

/-- Witness for C10 at a concrete all-null object column of length 4. -/
theorem logical_type_allnull_categorical_witness :
    logical_type Dtype.object ([none, none, none, none] : List (Option String)) = "categorical" :=
  logical_type_allnull_categorical [none, none, none, none] (by decide)

/-
Machinery for the uniqueness loop: decimal suffixes are injective in the
counter, so candidates for distinct counters are pairwise distinct and the
loop always exits within the provided fuel.
-/



theorem digitCh_toNat {d : Nat} (h : d < 10) : (digitCh d).toNat - 48 = d := by
  interval_cases d <;> rfl

theorem digitCh_ne_und (d : Nat) : digitCh d ≠ '_' := by
  unfold digitCh
  split <;> decide

theorem natDigitsAux_decode : ∀ fuel n, n < fuel → decodeDigits (natDigitsAux fuel n) = n := by
  intro fuel
  induction fuel with
  | zero => intro n h; omega
  | succ fuel ih =>
    intro n h
    cases n with
    | zero => rfl
    | succ n =>
      have hdiv : (n + 1) / 10 < n + 1 := Nat.div_lt_self (Nat.succ_pos n) (by norm_num)
      have hfuel : (n + 1) / 10 < fuel := by omega
      show decodeDigits (digitCh ((n + 1) % 10) :: natDigitsAux fuel ((n + 1) / 10)) = n + 1
      unfold decodeDigits
      rw [digitCh_toNat (Nat.mod_lt _ (by norm_num)), ih _ hfuel]
      exact Nat.mod_add_div (n + 1) 10

theorem natToStr_decode (n : Nat) : decodeDigits (natToStr n).reverse = n := by
  by_cases h : n = 0
  · subst h; rfl
  · unfold natToStr
    rw [if_neg h, List.reverse_reverse]
    exact natDigitsAux_decode (n + 1) n (by omega)

theorem natToStr_injective : Function.Injective natToStr := by
  intro a b h
  have ha := natToStr_decode a
  rw [h, natToStr_decode b] at ha
  omega

theorem natToStr_no_und (n : Nat) : '_' ∉ natToStr n := by
  unfold natToStr
  by_cases h : n = 0
  · simp [h]
  · simp only [if_neg h, List.mem_reverse]
    have : ∀ fuel k, '_' ∉ natDigitsAux fuel k := by
      intro fuel
      induction fuel with
      | zero => intro k; simp [natDigitsAux]
      | succ fuel ih =>
        intro k
        cases k with
        | zero => simp [natDigitsAux]
        | succ k =>
          intro hm
          rcases List.mem_cons.mp hm with h1 | h2
          · exact digitCh_ne_und _ h1.symm
          · exact ih _ h2
    exact this _ _

/-- Splitting at the last underscore is unambiguous: if two
underscore-free tails follow an underscore, the tails agree. -/
theorem append_und_tail_eq :
    ∀ (p : Str) {q a b : Str}, '_' ∉ a → '_' ∉ b →
      p ++ '_' :: a = q ++ '_' :: b → a = b := by
  intro p
  induction p with
  | nil =>
    intro q a b ha hb h
    cases q with
    | nil => simpa using h
    | cons c q' =>
      exfalso
      simp only [List.nil_append, List.cons_append, List.cons.injEq] at h
      exact ha (h.2 ▸ List.mem_append_right q' (List.mem_cons_self _ _))
  | cons c p' ih =>
    intro q a b ha hb h
    cases q with
    | nil =>
      exfalso
      simp only [List.cons_append, List.nil_append, List.cons.injEq] at h
      exact hb (h.2.symm ▸ List.mem_append_right p' (List.mem_cons_self _ _))
    | cons c' q' =>
      simp only [List.cons_append, List.cons.injEq] at h
      exact ih ha hb h.2

/-- Candidates of the uniqueness loop are injective in the counter: the
decimal suffix after the final underscore recovers the counter. -/
theorem candidate_injective (m : Option Nat) (base : Str) :
    Function.Injective (candidate m base) := by
  intro i j h
  unfold candidate sfx at h
  exact natToStr_injective
    (append_und_tail_eq _ (natToStr_no_und i) (natToStr_no_und j) h)

/-- Among the first `used.length + 1` candidates one is not in `used`. -/
theorem exists_free_candidate (used : List Str) (m : Option Nat) (base : Str) :
    ∃ k, k ≤ used.length ∧ candidate m base (2 + k) ∉ used := by
  by_contra hc
  push_neg at hc
  set L := (List.range (used.length + 1)).map (fun k => candidate m base (2 + k)) with hL
  have hnd : L.Nodup := by
    refine (List.nodup_range _).map ?_
    intro k1 k2 hk
    have := candidate_injective m base hk
    omega
  have hsub : L.toFinset ⊆ used.toFinset := by
    intro x hx
    rw [List.mem_toFinset] at hx ⊢
    rw [hL] at hx
    rcases List.mem_map.mp hx with ⟨k, hk, rfl⟩
    exact hc k (by have := List.mem_range.mp hk; omega)
  have hcard : L.toFinset.card = used.length + 1 := by
    rw [List.toFinset_card_of_nodup hnd, hL, List.length_map, List.length_range]
  have := Finset.card_le_card hsub
  have := List.toFinset_card_le used
  omega

/-- The fuel-driven uniqueness loop returns a name outside `used` as soon
as some candidate within the fuel horizon is free. -/
theorem resolveUniqueGo_not_mem (used : List Str) (m : Option Nat) (base : Str) :
    ∀ fuel s i,
      (s ∉ used ∨ ∃ k, k < fuel ∧ candidate m base (i + k) ∉ used) →
      resolveUniqueGo used m base fuel s i ∉ used := by
  intro fuel
  induction fuel with
  | zero =>
    intro s i h
    rcases h with h | ⟨k, hk, _⟩
    · exact h
    · omega
  | succ fuel ih =>
    intro s i h
    by_cases hs : s ∈ used
    · show (if s ∈ used then resolveUniqueGo used m base fuel (candidate m base i) (i + 1) else s) ∉ used
      rw [if_pos hs]
      rcases h with h | ⟨k, hk, hf⟩
      · exact absurd hs h
      · cases k with
        | zero =>
          apply ih
          left
          simpa using hf
        | succ k' =>
          apply ih
          right
          refine ⟨k', by omega, ?_⟩
          have : i + 1 + k' = i + (k' + 1) := by omega
          rw [this]
          exact hf
    · show (if s ∈ used then resolveUniqueGo used m base fuel (candidate m base i) (i + 1) else s) ∉ used
      rw [if_neg hs]
      exact hs

/-- The uniqueness loop never returns a name already in `used`: the model
has enough fuel to reach a free candidate (so it agrees with the
unbounded Python loop, which stops exactly at the first free name). -/
theorem resolveUnique_not_mem (used : List Str) (m : Option Nat) (base : Str) :
    resolveUnique used m base ∉ used := by
  unfold resolveUnique
  apply resolveUniqueGo_not_mem
  by_cases hb : base ∈ used
  · right
    obtain ⟨k, hk, hf⟩ := exists_free_candidate used m base
    exact ⟨k, by omega, hf⟩
  · left
    exact hb

/-- A base name that is still free is returned unchanged. -/
theorem resolveUnique_of_not_mem (used : List Str) (m : Option Nat) (base : Str)
    (h : base ∉ used) : resolveUnique used m base = base := by
  unfold resolveUnique
  show (if base ∈ used then
    resolveUniqueGo used m base (used.length + 1) (candidate m base 2) 3 else base) = base
  rw [if_neg h]

/-- The fuel-driven uniqueness loop returns its starting name or one of
the candidates. -/
theorem resolveUniqueGo_cases (used : List Str) (m : Option Nat) (base : Str) :
    ∀ fuel s i,
      resolveUniqueGo used m base fuel s i = s ∨
        ∃ j, resolveUniqueGo used m base fuel s i = candidate m base j := by
  intro fuel
  induction fuel with
  | zero => intro s i; left; rfl
  | succ fuel ih =>
    intro s i
    have heq : resolveUniqueGo used m base (fuel + 1) s i =
        (if s ∈ used then resolveUniqueGo used m base fuel (candidate m base i) (i + 1) else s) :=
      rfl
    rw [heq]
    by_cases h : s ∈ used
    · rw [if_pos h]
      rcases ih (candidate m base i) (i + 1) with h2 | ⟨j, hj⟩
      · right
        exact ⟨i, h2⟩
      · right
        exact ⟨j, hj⟩
    · left
      rw [if_neg h]

/-- The uniqueness loop returns the base name or one of the candidates. -/
theorem resolveUnique_cases (used : List Str) (m : Option Nat) (base : Str) :
    resolveUnique used m base = base ∨
      ∃ i, resolveUnique used m base = candidate m base i := by
  unfold resolveUnique
  exact resolveUniqueGo_cases used m base (used.length + 2) base 2

/-
Association-list lemmas (behaviour of the Python dict model).
-/

theorem keysOf_cons (k v : Str) (rest : List (Str × Str)) :
    keysOf ((k, v) :: rest) = k :: keysOf rest := rfl

theorem valsOf_cons (k v : Str) (rest : List (Str × Str)) :
    valsOf ((k, v) :: rest) = v :: valsOf rest := rfl

theorem lookupAssoc_cons_self (k v' : Str) (rest : List (Str × Str)) :
    lookupAssoc ((k, v') :: rest) k = some v' := by
  simp [lookupAssoc]

theorem lookupAssoc_cons_ne {k' k : Str} (v' : Str) (rest : List (Str × Str))
    (hk : k' ≠ k) : lookupAssoc ((k', v') :: rest) k = lookupAssoc rest k := by
  simp [lookupAssoc, hk]

theorem updAssoc_cons_self (k v v' : Str) (rest : List (Str × Str)) :
    updAssoc ((k, v') :: rest) k v = (k, v) :: rest := by
  simp [updAssoc]

theorem updAssoc_cons_ne {k' k : Str} (v v' : Str) (rest : List (Str × Str))
    (hk : k' ≠ k) : updAssoc ((k', v') :: rest) k v = (k', v') :: updAssoc rest k v := by
  simp [updAssoc, hk]

theorem lookupAssoc_isSome_iff (ml : List (Str × Str)) (k : Str) :
    (lookupAssoc ml k).isSome = true ↔ k ∈ keysOf ml := by
  induction ml with
  | nil => simp [lookupAssoc, keysOf]
  | cons e rest ih =>
    obtain ⟨k', v'⟩ := e
    by_cases h : k' = k
    · subst h
      rw [lookupAssoc_cons_self, keysOf_cons]
      simp
    · rw [lookupAssoc_cons_ne v' rest h, keysOf_cons, List.mem_cons, ih]
      constructor
      · intro hr
        exact Or.inr hr
      · intro hr
        rcases hr with hr | hr
        · exact absurd hr.symm h
        · exact hr

theorem lookupAssoc_eq_some_mem {ml : List (Str × Str)} {k v : Str}
    (h : lookupAssoc ml k = some v) : (k, v) ∈ ml := by
  induction ml with
  | nil => simp [lookupAssoc] at h
  | cons e rest ih =>
    obtain ⟨k', v'⟩ := e
    by_cases hk : k' = k
    · subst hk
      rw [lookupAssoc_cons_self] at h
      rw [show v' = v from Option.some.inj h]
      exact List.mem_cons_self _ _
    · rw [lookupAssoc_cons_ne v' rest hk] at h
      exact List.mem_cons_of_mem _ (ih h)

theorem lookupAssoc_of_not_mem_keys {ml : List (Str × Str)} {k : Str}
    (h : k ∉ keysOf ml) : lookupAssoc ml k = none := by
  induction ml with
  | nil => rfl
  | cons e rest ih =>
    obtain ⟨k', v'⟩ := e
    rw [keysOf_cons, List.mem_cons, not_or] at h
    rw [lookupAssoc_cons_ne v' rest (fun he => h.1 he.symm)]
    exact ih h.2

theorem mem_valsOf {ml : List (Str × Str)} {k v : Str} (h : (k, v) ∈ ml) :
    v ∈ valsOf ml := by
  unfold valsOf
  exact List.mem_map.mpr ⟨(k, v), h, rfl⟩

theorem mem_keysOf {ml : List (Str × Str)} {k v : Str} (h : (k, v) ∈ ml) :
    k ∈ keysOf ml := by
  unfold keysOf
  exact List.mem_map.mpr ⟨(k, v), h, rfl⟩

theorem hasKey_iff_mem {ml : List (Str × Str)} {k : Str} :
    hasKey ml k = true ↔ k ∈ keysOf ml := by
  unfold hasKey
  exact lookupAssoc_isSome_iff ml k

theorem keysOf_updAssoc_of_hasKey {ml : List (Str × Str)} {k : Str} (v : Str)
    (h : hasKey ml k = true) : keysOf (updAssoc ml k v) = keysOf ml := by
  induction ml with
  | nil => simp [hasKey, lookupAssoc] at h
  | cons e rest ih =>
    obtain ⟨k', v'⟩ := e
    by_cases hk : k' = k
    · subst hk
      rw [updAssoc_cons_self, keysOf_cons, keysOf_cons]
    · have h2 : hasKey rest k = true := by
        unfold hasKey at h ⊢
        rwa [lookupAssoc_cons_ne v' rest hk] at h
      rw [updAssoc_cons_ne v v' rest hk, keysOf_cons, keysOf_cons, ih h2]

theorem keysOf_updAssoc_of_fresh {ml : List (Str × Str)} {k : Str} (v : Str)
    (h : hasKey ml k = false) : keysOf (updAssoc ml k v) = keysOf ml ++ [k] := by
  induction ml with
  | nil => rfl
  | cons e rest ih =>
    obtain ⟨k', v'⟩ := e
    by_cases hk : k' = k
    · subst hk
      unfold hasKey at h
      rw [lookupAssoc_cons_self] at h
      simp at h
    · have h2 : hasKey rest k = false := by
        unfold hasKey at h ⊢
        rwa [lookupAssoc_cons_ne v' rest hk] at h
      rw [updAssoc_cons_ne v v' rest hk, keysOf_cons, keysOf_cons, ih h2,
        List.cons_append]

theorem mem_keysOf_updAssoc {ml : List (Str × Str)} {k0 v x : Str} :
    x ∈ keysOf (updAssoc ml k0 v) ↔ x ∈ keysOf ml ∨ x = k0 := by
  by_cases h : hasKey ml k0 = true
  · rw [keysOf_updAssoc_of_hasKey v h]
    constructor
    · exact fun hx => Or.inl hx
    · intro hx
      rcases hx with hx | hx
      · exact hx
      · subst hx
        exact hasKey_iff_mem.mp h
  · rw [keysOf_updAssoc_of_fresh v (by simpa using h)]
    simp

theorem mem_valsOf_updAssoc {ml : List (Str × Str)} {k0 v x : Str}
    (h : x ∈ valsOf (updAssoc ml k0 v)) : x = v ∨ x ∈ valsOf ml := by
  induction ml with
  | nil => simpa [updAssoc, valsOf] using h
  | cons e rest ih =>
    obtain ⟨k', v'⟩ := e
    by_cases hk : k' = k0
    · subst hk
      rw [updAssoc_cons_self, valsOf_cons] at h
      rw [valsOf_cons]
      rcases List.mem_cons.mp h with h | h
      · exact Or.inl h
      · exact Or.inr (List.mem_cons_of_mem _ h)
    · rw [updAssoc_cons_ne v v' rest hk, valsOf_cons] at h
      rw [valsOf_cons]
      rcases List.mem_cons.mp h with h | h
      · exact Or.inr (h ▸ List.mem_cons_self _ _)
      · rcases ih h with h2 | h2
        · exact Or.inl h2
        · exact Or.inr (List.mem_cons_of_mem _ h2)

theorem keysOf_nodup_updAssoc {ml : List (Str × Str)} {k : Str} (v : Str)
    (h : (keysOf ml).Nodup) : (keysOf (updAssoc ml k v)).Nodup := by
  by_cases hk : hasKey ml k = true
  · rw [keysOf_updAssoc_of_hasKey v hk]
    exact h
  · rw [keysOf_updAssoc_of_fresh v (by simpa using hk)]
    rw [List.nodup_append]
    refine ⟨h, List.nodup_singleton k, ?_⟩
    intro x hx
    simp only [List.mem_singleton]
    intro he
    subst he
    exact hk (hasKey_iff_mem.mpr hx)

theorem valsOf_nodup_updAssoc_fresh {ml : List (Str × Str)} {k v : Str}
    (hnd : (valsOf ml).Nodup) (hv : v ∉ valsOf ml) :
    (valsOf (updAssoc ml k v)).Nodup := by
  induction ml with
  | nil => simp [updAssoc, valsOf]
  | cons e rest ih =>
    obtain ⟨k', v'⟩ := e
    rw [valsOf_cons, List.nodup_cons] at hnd
    rw [valsOf_cons, List.mem_cons, not_or] at hv
    by_cases hk : k' = k
    · subst hk
      rw [updAssoc_cons_self, valsOf_cons, List.nodup_cons]
      exact ⟨hv.2, hnd.2⟩
    · rw [updAssoc_cons_ne v v' rest hk, valsOf_cons, List.nodup_cons]
      refine ⟨?_, ih hnd.2 hv.2⟩
      intro hmem
      rcases mem_valsOf_updAssoc hmem with h2 | h2
      · exact hv.1 h2.symm
      · exact hnd.1 h2

theorem valsOf_nodup_updAssoc_repl {ml : List (Str × Str)} {k v cur : Str}
    (hnd : (valsOf ml).Nodup) (hcur : lookupAssoc ml k = some cur)
    (hv : ∀ w ∈ valsOf ml, w ≠ cur → v ≠ w) :
    (valsOf (updAssoc ml k v)).Nodup := by
  induction ml with
  | nil => simp [lookupAssoc] at hcur
  | cons e rest ih =>
    obtain ⟨k', v'⟩ := e
    rw [valsOf_cons, List.nodup_cons] at hnd
    by_cases hk : k' = k
    · subst hk
      rw [lookupAssoc_cons_self] at hcur
      rw [show v' = cur from Option.some.inj hcur] at hnd ⊢
      rw [updAssoc_cons_self, valsOf_cons, List.nodup_cons]
      refine ⟨?_, hnd.2⟩
      intro hmem
      have hne : v ≠ v := by
        refine hv v ?_ ?_
        · rw [valsOf_cons, List.mem_cons]
          exact Or.inr hmem
        · intro he
          exact hnd.1 (he ▸ hmem)
      exact hne rfl
    · rw [lookupAssoc_cons_ne v' rest hk] at hcur
      rw [updAssoc_cons_ne v v' rest hk, valsOf_cons, List.nodup_cons]
      have hvc : v' ≠ cur := by
        intro he
        exact hnd.1 (he ▸ mem_valsOf (lookupAssoc_eq_some_mem hcur))
      have hv' : ∀ w ∈ valsOf rest, w ≠ cur → v ≠ w := by
        intro w hw hwc
        refine hv w ?_ hwc
        rw [valsOf_cons, List.mem_cons]
        exact Or.inr hw
      refine ⟨?_, ih hnd.2 hcur hv'⟩
      intro hmem
      rcases mem_valsOf_updAssoc hmem with h2 | h2
      · refine (hv v' ?_ hvc) h2.symm
        rw [valsOf_cons, List.mem_cons]
        exact Or.inl rfl
      · exact hnd.1 h2

theorem mem_updAssoc {ml : List (Str × Str)} {k v : Str} {x : Str × Str}
    (hnd : (keysOf ml).Nodup) (h : x ∈ updAssoc ml k v) :
    x = (k, v) ∨ (x ∈ ml ∧ x.1 ≠ k) := by
  induction ml with
  | nil => simpa [updAssoc] using h
  | cons e rest ih =>
    obtain ⟨k', v'⟩ := e
    rw [keysOf_cons, List.nodup_cons] at hnd
    by_cases hk : k' = k
    · subst hk
      rw [updAssoc_cons_self] at h
      rcases List.mem_cons.mp h with h | h
      · exact Or.inl h
      · refine Or.inr ⟨List.mem_cons_of_mem _ h, ?_⟩
        intro he
        exact hnd.1 (he ▸ mem_keysOf h)
    · rw [updAssoc_cons_ne v v' rest hk] at h
      rcases List.mem_cons.mp h with h | h
      · subst h
        exact Or.inr ⟨List.mem_cons_self _ _, hk⟩
      · rcases ih hnd.2 h with h2 | h2
        · exact Or.inl h2
        · exact Or.inr ⟨List.mem_cons_of_mem _ h2.1, h2.2⟩

theorem updAssoc_append_fresh {ml : List (Str × Str)} {k : Str} (v : Str)
    (h : hasKey ml k = false) : updAssoc ml k v = ml ++ [(k, v)] := by
  induction ml with
  | nil => rfl
  | cons e rest ih =>
    obtain ⟨k', v'⟩ := e
    by_cases hk : k' = k
    · subst hk
      unfold hasKey at h
      rw [lookupAssoc_cons_self] at h
      simp at h
    · have h2 : hasKey rest k = false := by
        unfold hasKey at h ⊢
        rwa [lookupAssoc_cons_ne v' rest hk] at h
      rw [updAssoc_cons_ne v v' rest hk, ih h2, List.cons_append]

theorem map_lookup_eq_valsOf {ml : List (Str × Str)}
    (hnd : (keysOf ml).Nodup) :
    (keysOf ml).map (fun k => (lookupAssoc ml k).getD k) = valsOf ml := by
  induction ml with
  | nil => rfl
  | cons e rest ih =>
    obtain ⟨k', v'⟩ := e
    rw [keysOf_cons, List.nodup_cons] at hnd
    rw [keysOf_cons, valsOf_cons, List.map_cons, lookupAssoc_cons_self,
      Option.getD_some]
    refine congrArg (v' :: ·) ?_
    have hstep : ∀ k ∈ keysOf rest,
        (lookupAssoc ((k', v') :: rest) k).getD k = (lookupAssoc rest k).getD k := by
      intro k hk
      rw [lookupAssoc_cons_ne v' rest (fun he => hnd.1 (by rw [he]; exact hk))]
    rw [List.map_congr_left hstep, ih hnd.2]

/-
Invariants of the base cleaning pass.
-/



theorem cleanStep_eq (rv : List Str) (cs dp : Str) (m : Option Nat)
    (st : CleanState) (label : Str) :
    cleanStep rv cs dp m st label =
      { mapping := updAssoc st.mapping label
          (resolveUnique st.used m (shorten m (resolveReserved rv cs (to_snake dp label)) 0)),
        used := resolveUnique st.used m
          (shorten m (resolveReserved rv cs (to_snake dp label)) 0) :: st.used } := rfl

theorem cleanStep_mapInv (rv : List Str) (cs dp : Str) (m : Option Nat)
    {st : CleanState} (h : MapInv st) (label : Str) :
    MapInv (cleanStep rv cs dp m st label) := by
  rw [cleanStep_eq]
  set s4 := resolveUnique st.used m (shorten m (resolveReserved rv cs (to_snake dp label)) 0)
    with hs4
  have hnm : s4 ∉ st.used := resolveUnique_not_mem _ _ _
  refine ⟨keysOf_nodup_updAssoc _ h.keys_nodup, ?_, ?_⟩
  · exact valsOf_nodup_updAssoc_fresh h.vals_nodup (fun hm => hnm (h.vals_used _ hm))
  · intro v hv
    rcases mem_valsOf_updAssoc hv with hv | hv
    · exact hv ▸ List.mem_cons_self _ _
    · exact List.mem_cons_of_mem _ (h.vals_used _ hv)

theorem foldl_cleanStep_mapInv (rv : List Str) (cs dp : Str) (m : Option Nat) :
    ∀ (labels : List Str) (st : CleanState), MapInv st →
      MapInv (labels.foldl (cleanStep rv cs dp m) st) := by
  intro labels
  induction labels with
  | nil => intro st h; exact h
  | cons l ls ih =>
    intro st h
    exact ih _ (cleanStep_mapInv rv cs dp m h l)

theorem foldl_cleanStep_keys (rv : List Str) (cs dp : Str) (m : Option Nat) :
    ∀ (labels : List Str) (st : CleanState) (k : Str),
      k ∈ keysOf ((labels.foldl (cleanStep rv cs dp m) st).mapping) ↔
        k ∈ keysOf st.mapping ∨ k ∈ labels := by
  intro labels
  induction labels with
  | nil => intro st k; simp
  | cons l ls ih =>
    intro st k
    rw [List.foldl_cons, ih, cleanStep_eq]
    show k ∈ keysOf (updAssoc st.mapping l _) ∨ k ∈ ls ↔ _
    rw [mem_keysOf_updAssoc]
    simp only [List.mem_cons]
    tauto

theorem foldl_cleanStep_used_mono (rv : List Str) (cs dp : Str) (m : Option Nat) :
    ∀ (labels : List Str) (st : CleanState) (u : Str),
      u ∈ st.used → u ∈ (labels.foldl (cleanStep rv cs dp m) st).used := by
  intro labels
  induction labels with
  | nil => intro st u h; exact h
  | cons l ls ih =>
    intro st u h
    refine ih _ u ?_
    rw [cleanStep_eq]
    exact List.mem_cons_of_mem _ h

theorem foldl_cleanStep_keys_eq (rv : List Str) (cs dp : Str) (m : Option Nat) :
    ∀ (labels : List Str) (st : CleanState), labels.Nodup →
      (∀ l ∈ labels, hasKey st.mapping l = false) →
      keysOf ((labels.foldl (cleanStep rv cs dp m) st).mapping) = keysOf st.mapping ++ labels := by
  intro labels
  induction labels with
  | nil => intro st _ _; simp
  | cons l ls ih =>
    intro st hnd hfresh
    rw [List.nodup_cons] at hnd
    rw [List.foldl_cons]
    have hstep : keysOf ((cleanStep rv cs dp m st l).mapping) = keysOf st.mapping ++ [l] := by
      rw [cleanStep_eq]
      exact keysOf_updAssoc_of_fresh _ (hfresh l (List.mem_cons_self _ _))
    have hfresh' : ∀ l' ∈ ls, hasKey ((cleanStep rv cs dp m st l).mapping) l' = false := by
      intro l' hl'
      have h1 : l' ∉ keysOf st.mapping := by
        intro hm
        have hk := hasKey_iff_mem.mpr hm
        rw [hfresh l' (List.mem_cons_of_mem _ hl')] at hk
        simp at hk
      have h2 : l' ∉ keysOf ((cleanStep rv cs dp m st l).mapping) := by
        rw [hstep, List.mem_append, List.mem_singleton]
        rintro (hm | hm)
        · exact h1 hm
        · exact hnd.1 (hm ▸ hl')
      cases hhk : hasKey ((cleanStep rv cs dp m st l).mapping) l' with
      | false => rfl
      | true => exact absurd (hasKey_iff_mem.mp hhk) h2
    rw [ih _ hnd.2 hfresh', hstep, List.append_assoc, List.singleton_append]

/-
Invariants of the override pass.
-/



theorem overrideStep_eq (rv : List Str) (cs dp : Str) (m : Option Nat)
    (st : OverState) (ov : Str × Str) :
    overrideStep rv cs dp m st ov =
      { mapping := if hasKey st.mapping ov.1
          then updAssoc st.mapping ov.1 (ovResolved rv cs dp m st ov)
          else st.mapping,
        used := ovResolved rv cs dp m st ov :: st.used,
        cleanedOver := updAssoc st.cleanedOver (ovCurrent dp st ov)
          (ovResolved rv cs dp m st ov) } := rfl



theorem overInv_init {B : List Str} {st : CleanState} (h : MapInv st)
    (hB : ∀ b ∈ B, b ∈ st.used) :
    OverInv B ⟨st.mapping, st.used, []⟩ := by
  refine ⟨h.keys_nodup, h.vals_nodup, h.vals_used, hB, ?_, ?_, ?_, ?_⟩
  · simp [keysOf]
  · simp
  · simp
  · simp

theorem overInv_step {B : List Str} {mapping : List (Str × Str)} {used : List Str}
    {co : List (Str × Str)} (inv : OverInv B ⟨mapping, used, co⟩)
    (k current v3 : Str)
    (hv3 : ∀ u ∈ used, u ≠ current → v3 ≠ u)
    (hcur : ∀ w, lookupAssoc mapping k = some w → w = current) :
    OverInv B ⟨if hasKey mapping k then updAssoc mapping k v3 else mapping,
      v3 :: used, updAssoc co current v3⟩ := by
  have hv3B : v3 ∈ B → v3 = current := by
    intro hb
    by_contra hne
    exact hv3 v3 (inv.b_used v3 hb) hne rfl
  refine ⟨?_, ?_, ?_, ?_, ?_, ?_, ?_, ?_⟩
  · by_cases hk : hasKey mapping k = true
    · rw [if_pos hk]
      exact keysOf_nodup_updAssoc _ inv.keys_nodup
    · rw [if_neg hk]
      exact inv.keys_nodup
  · by_cases hk : hasKey mapping k = true
    · rw [if_pos hk]
      obtain ⟨w, hw⟩ := Option.isSome_iff_exists.mp hk
      have hwc : w = current := hcur w hw
      subst hwc
      refine valsOf_nodup_updAssoc_repl inv.vals_nodup hw ?_
      intro w' hw' hne
      exact hv3 w' (inv.vals_used w' hw') hne
    · rw [if_neg hk]
      exact inv.vals_nodup
  · intro v hv
    by_cases hk : hasKey mapping k = true
    · rw [if_pos hk] at hv
      rcases mem_valsOf_updAssoc hv with hv | hv
      · exact hv ▸ List.mem_cons_self _ _
      · exact List.mem_cons_of_mem _ (inv.vals_used v hv)
    · rw [if_neg hk] at hv
      exact List.mem_cons_of_mem _ (inv.vals_used v hv)
  · intro b hb
    exact List.mem_cons_of_mem _ (inv.b_used b hb)
  · exact keysOf_nodup_updAssoc _ inv.co_keys_nodup
  · intro e he
    rcases mem_updAssoc inv.co_keys_nodup he with he | he
    · rw [he]
      exact List.mem_cons_self _ _
    · exact List.mem_cons_of_mem _ (inv.co_vals_used e he.1)
  · intro e he hb
    rcases mem_updAssoc inv.co_keys_nodup he with he | he
    · rw [he] at hb ⊢
      exact hv3B hb
    · exact inv.co_vals_b e he.1 hb
  · intro e1 he1 e2 he2 hne heq
    rcases mem_updAssoc inv.co_keys_nodup he1 with he1 | he1 <;>
      rcases mem_updAssoc inv.co_keys_nodup he2 with he2 | he2
    · rw [he1, he2] at hne
      exact absurd rfl hne
    · subst he1
      change v3 = e2.2 at heq
      have h2u : e2.2 ∈ used := inv.co_vals_used e2 he2.1
      by_cases h2c : e2.2 = current
      · left
        change v3 = current
        rw [heq, h2c]
      · exact absurd heq (hv3 e2.2 h2u h2c)
    · subst he2
      change e1.2 = v3 at heq
      have h1u : e1.2 ∈ used := inv.co_vals_used e1 he1.1
      by_cases h1c : e1.2 = current
      · right
        change v3 = current
        rw [← heq, h1c]
      · exact absurd heq.symm (hv3 e1.2 h1u h1c)
    · exact inv.co_pair e1 he1.1 e2 he2.1 hne heq

theorem overrideStep_overInv {B : List Str} (rv : List Str) (cs dp : Str)
    (m : Option Nat) {st : OverState} (inv : OverInv B st) (ov : Str × Str) :
    OverInv B (overrideStep rv cs dp m st ov) := by
  have hv3 : ∀ u ∈ st.used, u ≠ ovCurrent dp st ov → ovResolved rv cs dp m st ov ≠ u := by
    intro u hu hne heq
    have hm : ovResolved rv cs dp m st ov ∈
        st.used.filter (fun u => u ≠ ovCurrent dp st ov) := by
      rw [heq]
      exact List.mem_filter.mpr ⟨hu, by simp [hne]⟩
    exact resolveUnique_not_mem _ _ _ hm
  have hcur : ∀ w, lookupAssoc st.mapping ov.1 = some w → w = ovCurrent dp st ov := by
    intro w hw
    unfold ovCurrent
    rw [hw]
    rfl
  rw [overrideStep_eq]
  exact overInv_step inv ov.1 (ovCurrent dp st ov) (ovResolved rv cs dp m st ov) hv3 hcur

theorem foldl_overrideStep_overInv {B : List Str} (rv : List Str) (cs dp : Str)
    (m : Option Nat) :
    ∀ (ovs : List (Str × Str)) (st : OverState), OverInv B st →
      OverInv B (ovs.foldl (overrideStep rv cs dp m) st) := by
  intro ovs
  induction ovs with
  | nil => intro st h; exact h
  | cons ov rest ih =>
    intro st h
    exact ih _ (overrideStep_overInv rv cs dp m h ov)

/-- The final rename pass keeps distinct base labels distinct. -/
theorem table_nodup_of_overInv {B : List Str} {st : OverState}
    (inv : OverInv B st) (hB : B.Nodup) :
    (B.map (fun l => (lookupAssoc st.cleanedOver l).getD l)).Nodup := by
  refine List.Nodup.map_on ?_ hB
  intro l1 h1 l2 h2 hf
  cases hc1 : lookupAssoc st.cleanedOver l1 with
  | none =>
    cases hc2 : lookupAssoc st.cleanedOver l2 with
    | none =>
      rw [hc1, hc2] at hf
      simpa using hf
    | some v2 =>
      rw [hc1, hc2] at hf
      simp only [Option.getD_none, Option.getD_some] at hf
      have he2 := lookupAssoc_eq_some_mem hc2
      have hb2 := inv.co_vals_b _ he2 (show v2 ∈ B by rw [← hf]; exact h1)
      exact hf.trans hb2
  | some v1 =>
    cases hc2 : lookupAssoc st.cleanedOver l2 with
    | none =>
      rw [hc1, hc2] at hf
      simp only [Option.getD_none, Option.getD_some] at hf
      have he1 := lookupAssoc_eq_some_mem hc1
      have hb1 := inv.co_vals_b _ he1 (show v1 ∈ B by rw [hf]; exact h2)
      change v1 = l1 at hb1
      exact hb1.symm.trans hf
    | some v2 =>
      rw [hc1, hc2] at hf
      simp only [Option.getD_some] at hf
      by_cases hl : l1 = l2
      · exact hl
      · have he1 := lookupAssoc_eq_some_mem hc1
        have he2 := lookupAssoc_eq_some_mem hc2
        have hp := inv.co_pair _ he1 _ he2
          (show (l1, v1).1 ≠ (l2, v2).1 from hl)
          (show (l1, v1).2 = (l2, v2).2 from hf)
        rcases hp with hp | hp
        · change v1 = l1 at hp
          have hv2B : v2 ∈ B := by
            rw [← hf, hp]
            exact h1
          have hb := inv.co_vals_b _ he2 hv2B
          change v2 = l2 at hb
          exact hp.symm.trans (hf.trans hb)
        · change v2 = l2 at hp
          have hv1B : v1 ∈ B := by
            rw [hf, hp]
            exact h2
          have hb := inv.co_vals_b _ he1 hv1B
          change v1 = l1 at hb
          exact hb.symm.trans (hf.trans hp)



theorem clean_columns_mapping_eq (labels : List Str) (overrides : List (Str × Str))
    (dp cs : Str) (max_len : Option Nat) (er : List Str) :
    (clean_columns labels overrides dp cs max_len er).mapping =
      (overridePass labels overrides dp cs max_len er).mapping := rfl

theorem clean_columns_table_eq (labels : List Str) (overrides : List (Str × Str))
    (dp cs : Str) (max_len : Option Nat) (er : List Str) :
    (clean_columns labels overrides dp cs max_len er).table =
      (labels.map (fun l =>
        (lookupAssoc (basePass labels dp cs max_len er).mapping l).getD l)).map
        (fun l =>
          (lookupAssoc (overridePass labels overrides dp cs max_len er).cleanedOver l).getD l) :=
  rfl

theorem mapInv_empty : MapInv ⟨[], []⟩ := by
  refine ⟨List.nodup_nil, List.nodup_nil, ?_⟩
  intro v hv
  simp [valsOf] at hv

theorem basePass_mapInv (labels : List Str) (dp cs : Str) (m : Option Nat)
    (er : List Str) : MapInv (basePass labels dp cs m er) :=
  foldl_cleanStep_mapInv _ _ _ _ labels _ mapInv_empty

theorem overrideStep_keys (rv : List Str) (cs dp : Str) (m : Option Nat)
    (st : OverState) (ov : Str × Str) :
    keysOf ((overrideStep rv cs dp m st ov).mapping) = keysOf st.mapping := by
  rw [overrideStep_eq]
  by_cases hk : hasKey st.mapping ov.1 = true
  · show keysOf (if hasKey st.mapping ov.1 then _ else st.mapping) = _
    rw [if_pos hk]
    exact keysOf_updAssoc_of_hasKey _ hk
  · show keysOf (if hasKey st.mapping ov.1 then _ else st.mapping) = _
    rw [if_neg hk]

theorem foldl_overrideStep_keys (rv : List Str) (cs dp : Str) (m : Option Nat) :
    ∀ (ovs : List (Str × Str)) (st : OverState),
      keysOf ((ovs.foldl (overrideStep rv cs dp m) st).mapping) = keysOf st.mapping := by
  intro ovs
  induction ovs with
  | nil => intro st; rfl
  | cons ov rest ih =>
    intro st
    rw [List.foldl_cons, ih, overrideStep_keys]

theorem overridePass_overInv (labels : List Str) (overrides : List (Str × Str))
    (dp cs : Str) (m : Option Nat) (er : List Str) :
    OverInv (valsOf (basePass labels dp cs m er).mapping)
      (overridePass labels overrides dp cs m er) := by
  unfold overridePass
  refine foldl_overrideStep_overInv _ _ _ _ overrides _ ?_
  exact overInv_init (basePass_mapInv labels dp cs m er)
    ((basePass_mapInv labels dp cs m er).vals_used)

/-
C1 amended: the mapping has exactly one entry per distinct input label.
-/

/-- C1 amended: the mapping returned by `clean_columns` has exactly one
entry per *distinct* (string-coerced) input label — its keys are
duplicate-free and a key occurs exactly for the labels present in the
input.  Columns repeating a raw label therefore share a single entry
(holding the cleaned name assigned to the last duplicate), rather than
getting one entry per column. -/
theorem clean_columns_mapping_keys_distinct_labels
    (labels : List Str) (overrides : List (Str × Str)) (dp cs : Str)
    (max_len : Option Nat) (er : List Str) :
    (keysOf (clean_columns labels overrides dp cs max_len er).mapping).Nodup ∧
    ∀ l, l ∈ keysOf (clean_columns labels overrides dp cs max_len er).mapping ↔ l ∈ labels := by
  rw [clean_columns_mapping_eq]
  unfold overridePass
  rw [foldl_overrideStep_keys]
  constructor
  · exact (basePass_mapInv labels dp cs max_len er).keys_nodup
  · intro l
    unfold basePass
    rw [foldl_cleanStep_keys]
    simp [keysOf]

/-
C5 amended: an override whose key is absent from the table raises no
error and never introduces a mapping entry for that key.
-/

/-- C5 amended: for an override key absent from the table's original
labels, `clean_columns` raises no error (it is total) and the returned
mapping never contains that key.  (The entry is not a complete no-op,
however: its resolved target is still added to the used-set — influencing
the resolution of later overrides — and it is recorded in the rename
dictionary under `to_snake(key)`, which renames a column whose cleaned
name happens to coincide; see the counterexample.) -/
theorem clean_columns_absent_override_no_mapping_entry
    (labels : List Str) (overrides : List (Str × Str)) (dp cs : Str)
    (max_len : Option Nat) (er : List Str) (k : Str) (hk : k ∉ labels) :
    k ∉ keysOf (clean_columns labels overrides dp cs max_len er).mapping := by
  rw [clean_columns_mapping_eq]
  unfold overridePass
  rw [foldl_overrideStep_keys]
  unfold basePass
  rw [foldl_cleanStep_keys]
  simp [keysOf]
  exact hk

/-- Witness for C5 at a concrete input: the override key `"A"` is not a
column of the table `["a"]`, and the resulting mapping has no entry for
`"A"`. -/
theorem clean_columns_absent_override_no_mapping_entry_witness :
    "A".data ∉ keysOf (clean_columns ["a".data] [("A".data, "b".data)]
      "col_".data "_col".data none []).mapping :=
  clean_columns_absent_override_no_mapping_entry ["a".data] [("A".data, "b".data)]
    "col_".data "_col".data none [] "A".data (by decide)

/-
C2 amended: final labels are pairwise distinct — as mapping values for
every input, and as table labels whenever the input labels are distinct.
-/

/-- C2 amended: the values of the returned mapping are pairwise distinct
for every input (even with repeated raw labels and arbitrary overrides),
and whenever the input labels are pairwise distinct the returned table's
labels are pairwise distinct as well.  (For repeated raw labels the table
renames every occurrence to the same final name; see the
counterexample.) -/
theorem clean_columns_unique_final_labels
    (labels : List Str) (overrides : List (Str × Str)) (dp cs : Str)
    (max_len : Option Nat) (er : List Str) :
    (valsOf (clean_columns labels overrides dp cs max_len er).mapping).Nodup ∧
    (labels.Nodup → (clean_columns labels overrides dp cs max_len er).table.Nodup) := by
  have hbp := basePass_mapInv labels dp cs max_len er
  have hoinv := overridePass_overInv labels overrides dp cs max_len er
  constructor
  · rw [clean_columns_mapping_eq]
    exact hoinv.vals_nodup
  · intro hnd
    have hkeys : keysOf (basePass labels dp cs max_len er).mapping = labels := by
      unfold basePass
      rw [foldl_cleanStep_keys_eq (reservedList er) cs dp max_len labels ⟨[], []⟩ hnd
        (fun l _ => rfl)]
      simp [keysOf]
    have ht1 := map_lookup_eq_valsOf hbp.keys_nodup
    rw [hkeys] at ht1
    rw [clean_columns_table_eq, ht1]
    exact table_nodup_of_overInv hoinv hbp.vals_nodup

/-- Witness for C2 at a concrete input with an override: distinct labels
in, distinct mapping values and distinct table labels out. -/
theorem clean_columns_unique_final_labels_witness :
    (valsOf (clean_columns ["Name".data, "name".data] [("Name".data, "user".data)]
      "col_".data "_col".data none []).mapping).Nodup ∧
    (clean_columns ["Name".data, "name".data] [("Name".data, "user".data)]
      "col_".data "_col".data none []).table.Nodup :=
  ⟨(clean_columns_unique_final_labels ["Name".data, "name".data]
      [("Name".data, "user".data)] "col_".data "_col".data none []).1,
   (clean_columns_unique_final_labels ["Name".data, "name".data]
      [("Name".data, "user".data)] "col_".data "_col".data none []).2 (by decide)⟩

/-
C3 amended: reserved-avoidance under the default configuration
(`max_len=None`, `extra_reserved` empty, default `conflict_suffix`).
-/

theorem resolveReserved_default_not_mem (s : Str) :
    resolveReserved (reservedList []) "_col".data s ∉ reservedList [] := by
  by_cases h : s ∈ reservedList []
  · have hs : s = "index".data ∨ s = "columns".data := by
      simpa [reservedList] using h
    rcases hs with rfl | rfl
    · decide
    · decide
  · show (if s ∈ reservedList [] then
        resolveReservedGo (reservedList []) "_col".data ((reservedList []).length)
          (s ++ "_col".data) else s) ∉ reservedList []
    rw [if_neg h]
    exact h

theorem und_mem_candidate (m : Option Nat) (base : Str) (i : Nat) :
    '_' ∈ candidate m base i := by
  unfold candidate sfx
  exact List.mem_append_right _ (List.mem_cons_self _ _)

theorem not_reserved_default_of_und {x : Str} (h : '_' ∈ x) :
    x ∉ reservedList [] := by
  intro hm
  have hx : x = "index".data ∨ x = "columns".data := by
    simpa [reservedList] using hm
  rcases hx with rfl | rfl
  · revert h
    decide
  · revert h
    decide

theorem resolveUnique_not_reserved_default (used : List Str) (m : Option Nat)
    {base : Str} (hb : base ∉ reservedList []) :
    resolveUnique used m base ∉ reservedList [] := by
  rcases resolveUnique_cases used m base with h | ⟨i, h⟩
  · rw [h]
    exact hb
  · rw [h]
    exact not_reserved_default_of_und (und_mem_candidate m base i)

theorem cleanStep_used_not_reserved (dp : Str) (l : Str) {st : CleanState}
    (h : ∀ u ∈ st.used, u ∉ reservedList []) :
    ∀ u ∈ (cleanStep (reservedList []) "_col".data dp none st l).used,
      u ∉ reservedList [] := by
  rw [cleanStep_eq]
  intro u hu
  rcases List.mem_cons.mp hu with hu | hu
  · subst hu
    exact resolveUnique_not_reserved_default _ _ (resolveReserved_default_not_mem _)
  · exact h u hu

theorem basePass_used_not_reserved (labels : List Str) (dp : Str) :
    ∀ u ∈ (basePass labels dp "_col".data none []).used, u ∉ reservedList [] := by
  unfold basePass
  have hgen : ∀ (ls : List Str) (st : CleanState),
      (∀ u ∈ st.used, u ∉ reservedList []) →
      ∀ u ∈ (ls.foldl (cleanStep (reservedList []) "_col".data dp none) st).used,
        u ∉ reservedList [] := by
    intro ls
    induction ls with
    | nil => intro st h; exact h
    | cons l rest ih =>
      intro st h
      exact ih _ (cleanStep_used_not_reserved dp l h)
  exact hgen labels ⟨[], []⟩ (by intro u hu; simp at hu)

theorem overrideStep_used_not_reserved (dp : Str) (ov : Str × Str) {st : OverState}
    (h : ∀ u ∈ st.used, u ∉ reservedList []) :
    ∀ u ∈ (overrideStep (reservedList []) "_col".data dp none st ov).used,
      u ∉ reservedList [] := by
  rw [overrideStep_eq]
  intro u hu
  rcases List.mem_cons.mp hu with hu | hu
  · subst hu
    exact resolveUnique_not_reserved_default _ _ (resolveReserved_default_not_mem _)
  · exact h u hu

theorem overridePass_used_not_reserved (labels : List Str)
    (overrides : List (Str × Str)) (dp : Str) :
    ∀ u ∈ (overridePass labels overrides dp "_col".data none []).used,
      u ∉ reservedList [] := by
  unfold overridePass
  have hgen : ∀ (ovs : List (Str × Str)) (st : OverState),
      (∀ u ∈ st.used, u ∉ reservedList []) →
      ∀ u ∈ (ovs.foldl (overrideStep (reservedList []) "_col".data dp none) st).used,
        u ∉ reservedList [] := by
    intro ovs
    induction ovs with
    | nil => intro st h; exact h
    | cons ov rest ih =>
      intro st h
      exact ih _ (overrideStep_used_not_reserved dp ov h)
  exact hgen overrides _ (basePass_used_not_reserved labels dp)

theorem lookup_getD_mem_vals {ml : List (Str × Str)} {k : Str}
    (hk : k ∈ keysOf ml) : (lookupAssoc ml k).getD k ∈ valsOf ml := by
  obtain ⟨w, hw⟩ := Option.isSome_iff_exists.mp ((lookupAssoc_isSome_iff ml k).mpr hk)
  rw [hw]
  exact mem_valsOf (lookupAssoc_eq_some_mem hw)

/-- C3 amended: with the default configuration — `max_len` unset,
`extra_reserved` empty, `conflict_suffix = "_col"` — no final label on the
returned table or among the mapping values equals a reserved name
(`"index"` or `"columns"`), for every input table and every `overrides`.
(A length cap can truncate a resolved name back into the reserved set, and
a reserved `extra_reserved` entry of the form `name_2` can be produced by
the disambiguation suffix, hence the restriction; see the
counterexample.) -/
theorem clean_columns_reserved_avoidance
    (labels : List Str) (overrides : List (Str × Str)) (dp : Str) (v : Str)
    (h : v ∈ valsOf (clean_columns labels overrides dp "_col".data none []).mapping ∨
         v ∈ (clean_columns labels overrides dp "_col".data none []).table) :
    v ∉ reservedList [] := by
  have hbp := basePass_mapInv labels dp "_col".data none []
  have hoinv := overridePass_overInv labels overrides dp "_col".data none []
  rcases h with h | h
  · rw [clean_columns_mapping_eq] at h
    exact overridePass_used_not_reserved labels overrides dp v (hoinv.vals_used v h)
  · rw [clean_columns_table_eq] at h
    rcases List.mem_map.mp h with ⟨l, hl, hv⟩
    rcases List.mem_map.mp hl with ⟨l0, hl0, hldef⟩
    have hlv : l ∈ valsOf (basePass labels dp "_col".data none []).mapping := by
      rw [← hldef]
      refine lookup_getD_mem_vals ?_
      unfold basePass
      rw [foldl_cleanStep_keys]
      exact Or.inr hl0
    cases hc : lookupAssoc
        (overridePass labels overrides dp "_col".data none []).cleanedOver l with
    | none =>
      rw [hc, Option.getD_none] at hv
      rw [← hv]
      exact basePass_used_not_reserved labels dp l (hbp.vals_used l hlv)
    | some vv =>
      rw [hc, Option.getD_some] at hv
      rw [← hv]
      have he := lookupAssoc_eq_some_mem hc
      exact overridePass_used_not_reserved labels overrides dp vv
        (hoinv.co_vals_used _ he)

/-- Witness for C3: the column `"price"` maps to the non-reserved final
label `"price"`. -/
theorem clean_columns_reserved_avoidance_witness :
    "price".data ∉ reservedList [] :=
  clean_columns_reserved_avoidance ["price".data] [] "col_".data "price".data
    (Or.inl (by decide))

/-
C4 amended: the length cap holds for final labels that needed no
disambiguation suffix.
-/



theorem shorten_length_le (mx : Nat) (hm : 1 ≤ mx) (s : Str) (keep : Nat) :
    (shorten (some mx) s keep).length ≤ mx + keep := by
  show (if s.length ≤ mx then s else s.take (max 1 (mx - keep))).length ≤ mx + keep
  by_cases h : s.length ≤ mx
  · rw [if_pos h]
    omega
  · rw [if_neg h]
    rw [List.length_take]
    have : max 1 (mx - keep) ≤ mx := by omega
    omega

theorem shorten_zero_length_le (mx : Nat) (hm : 1 ≤ mx) (s : Str) :
    (shorten (some mx) s 0).length ≤ mx := by
  have := shorten_length_le mx hm s 0
  omega

theorem foldl_clean_nocollision (rv : List Str) (cs dp : Str) (mx : Nat)
    (hm : 1 ≤ mx) :
    ∀ (labels : List Str) (st : CleanState),
      (∀ u ∈ st.used, u.length ≤ mx) →
      (∀ l ∈ labels, shorten (some mx) (resolveReserved rv cs (to_snake dp l)) 0 ∉ st.used) →
      (labels.map (fun l => shorten (some mx) (resolveReserved rv cs (to_snake dp l)) 0)).Nodup →
      ∀ u ∈ (labels.foldl (cleanStep rv cs dp (some mx)) st).used, u.length ≤ mx := by
  intro labels
  induction labels with
  | nil => intro st h _ _; exact h
  | cons l ls ih =>
    intro st hlen hfresh hnd
    rw [List.map_cons, List.nodup_cons] at hnd
    rw [List.foldl_cons]
    have hstep : cleanStep rv cs dp (some mx) st l =
        { mapping := updAssoc st.mapping l
            (shorten (some mx) (resolveReserved rv cs (to_snake dp l)) 0),
          used := shorten (some mx) (resolveReserved rv cs (to_snake dp l)) 0 :: st.used } := by
      rw [cleanStep_eq]
      rw [resolveUnique_of_not_mem _ _ _ (hfresh l (List.mem_cons_self _ _))]
    rw [hstep]
    refine ih _ ?_ ?_ hnd.2
    · intro u hu
      rcases List.mem_cons.mp hu with hu | hu
      · rw [hu]
        exact shorten_zero_length_le mx hm _
      · exact hlen u hu
    · intro l' hl'
      intro hmem
      rcases List.mem_cons.mp hmem with hmem | hmem
      · exact hnd.1 (hmem ▸ List.mem_map_of_mem _ hl')
      · exact hfresh l' (List.mem_cons_of_mem _ hl') hmem

/-- C4 amended: with `max_len = m ≥ 1`, no overrides, and base candidates
that are pairwise distinct after snake-casing, reserved-resolution and the
length cap (so that no disambiguation suffix is needed), every final label
of `clean_columns` — mapping value or table label — has length at most
`m`.  (A disambiguated label can exceed `max_len`, because `shorten` only
truncates a base that itself exceeds `max_len` and otherwise appends the
suffix untruncated, and the override pass never truncates a
collision-free target at all; see the counterexample.) -/
theorem clean_columns_max_len_no_collision
    (labels : List Str) (dp cs : Str) (er : List Str) (mx : Nat)
    (hm : 1 ≤ mx)
    (hnc : (labels.map (base_candidate er cs dp (some mx))).Nodup) :
    (∀ v ∈ valsOf (clean_columns labels [] dp cs (some mx) er).mapping, v.length ≤ mx) ∧
    (∀ v ∈ (clean_columns labels [] dp cs (some mx) er).table, v.length ≤ mx) := by
  have hbp := basePass_mapInv labels dp cs (some mx) er
  have husedlen : ∀ u ∈ (basePass labels dp cs (some mx) er).used, u.length ≤ mx := by
    unfold basePass
    refine foldl_clean_nocollision (reservedList er) cs dp mx hm labels ⟨[], []⟩ ?_ ?_ ?_
    · intro u hu
      simp at hu
    · intro l _ hmem
      simp at hmem
    · exact hnc
  have hmapvals : ∀ v ∈ valsOf (clean_columns labels [] dp cs (some mx) er).mapping,
      v.length ≤ mx := by
    intro v hv
    rw [clean_columns_mapping_eq] at hv
    have : (overridePass labels [] dp cs (some mx) er).mapping =
        (basePass labels dp cs (some mx) er).mapping := rfl
    rw [this] at hv
    exact husedlen v (hbp.vals_used v hv)
  refine ⟨hmapvals, ?_⟩
  intro v hv
  rw [clean_columns_table_eq] at hv
  rcases List.mem_map.mp hv with ⟨l, hl, hvdef⟩
  have hco : (overridePass labels [] dp cs (some mx) er).cleanedOver = [] := rfl
  rw [hco] at hvdef
  simp only [lookupAssoc, Option.getD_none] at hvdef
  rcases List.mem_map.mp hl with ⟨l0, hl0, hldef⟩
  have hlv : l ∈ valsOf (basePass labels dp cs (some mx) er).mapping := by
    rw [← hldef]
    refine lookup_getD_mem_vals ?_
    unfold basePass
    rw [foldl_cleanStep_keys]
    exact Or.inr hl0
  rw [← hvdef]
  exact husedlen l (hbp.vals_used l hlv)

/-- Witness for C4 at a concrete input: `["alpha", "beta"]`, `max_len=4`:
the first final label is the truncation `"alph"`, of length at most 4. -/
theorem clean_columns_max_len_no_collision_witness :
    ("alph".data).length ≤ 4 :=
  (clean_columns_max_len_no_collision ["alpha".data, "beta".data] "col_".data
    "_col".data [] 4 (by decide) (by decide)).1 "alph".data (by decide)

/-
C9: idempotence on already-normalized labels.
-/



theorem word_ranges {c : Char} (h : isWordCh c = true) :
    (97 ≤ c.toNat ∧ c.toNat ≤ 122) ∨ (48 ≤ c.toNat ∧ c.toNat ≤ 57) ∨ c.toNat = 95 := by
  unfold isWordCh isLowerAZ isDigitCh at h
  simp only [Bool.or_eq_true, Bool.and_eq_true, decide_eq_true_eq] at h
  rcases h with (h | h) | h
  · exact Or.inl h
  · exact Or.inr (Or.inl h)
  · subst h
    exact Or.inr (Or.inr rfl)

theorem word_not_upper {c : Char} (h : isWordCh c = true) : isUpperAZ c = false := by
  have hr := word_ranges h
  apply Bool.eq_false_iff.mpr
  intro hT
  unfold isUpperAZ at hT
  simp only [Bool.and_eq_true, decide_eq_true_eq] at hT
  omega

theorem word_not_space {c : Char} (h : isWordCh c = true) : isSpaceCh c = false := by
  have hr := word_ranges h
  apply Bool.eq_false_iff.mpr
  intro hT
  unfold isSpaceCh at hT
  simp only [Bool.or_eq_true, Bool.and_eq_true, decide_eq_true_eq] at hT
  omega

theorem word_not_combining {c : Char} (h : isWordCh c = true) :
    isCombining c = false := by
  have hr := word_ranges h
  apply Bool.eq_false_iff.mpr
  intro hT
  unfold isCombining at hT
  simp only [Bool.and_eq_true, decide_eq_true_eq] at hT
  omega

theorem word_lowerCh {c : Char} (h : isWordCh c = true) : lowerCh c = c := by
  have hr := word_ranges h
  unfold lowerCh
  rw [if_neg]
  intro hT
  simp only [Bool.and_eq_true, decide_eq_true_eq] at hT
  omega

theorem word_replCh {c : Char} (h : isWordCh c = true) : replCh c = c := by
  have hr := word_ranges h
  unfold replCh
  rw [if_neg]
  intro hT
  simp only [Bool.or_eq_true, decide_eq_true_eq] at hT
  rcases hT with hT | hT
  · have hc : c.toNat = 45 := by rw [hT]; rfl
    omega
  · have hc : c.toNat = 47 := by rw [hT]; rfl
    omega

theorem word_nfkdChar {c : Char} (h : isWordCh c = true) : nfkdChar c = [c] := by
  have htab : ∀ e ∈ nfkdTable, isWordCh e.1 = false := by decide
  unfold nfkdChar
  rw [List.find?_eq_none.mpr ?_]
  intro x hx
  simp only [decide_eq_true_eq]
  intro he
  have hf := htab x hx
  rw [he, h] at hf
  simp at hf

theorem flatten_map_singleton (s : Str) :
    (s.map (fun c => [c])).flatten = s := by
  induction s with
  | nil => rfl
  | cons c rest ih => simp [ih]

theorem map_id_on {f : Char → Char} :
    ∀ {s : Str}, (∀ c ∈ s, f c = c) → s.map f = s := by
  intro s
  induction s with
  | nil => intro _; rfl
  | cons c rest ih =>
    intro h
    rw [List.map_cons, h c (List.mem_cons_self _ _), ih (fun x hx => h x (List.mem_cons_of_mem _ hx))]

theorem dropWhile_all_false {p : Char → Bool} :
    ∀ {s : Str}, (∀ c ∈ s, p c = false) → s.dropWhile p = s := by
  intro s h
  cases s with
  | nil => rfl
  | cons c rest =>
    rw [List.dropWhile_cons, if_neg]
    simp [h c (List.mem_cons_self _ _)]

theorem dropWhile_head_false {p : Char → Bool} :
    ∀ {s : Str}, (∀ c, s.head? = some c → p c = false) → s.dropWhile p = s := by
  intro s h
  cases s with
  | nil => rfl
  | cons c rest =>
    rw [List.dropWhile_cons, if_neg]
    simp [h c rfl]

theorem deaccent_id {s : Str} (h : ∀ c ∈ s, isWordCh c = true) : deaccent s = s := by
  unfold deaccent
  have h1 : s.map nfkdChar = s.map (fun c => [c]) :=
    List.map_congr_left (fun c hc => word_nfkdChar (h c hc))
  rw [h1, flatten_map_singleton]
  refine List.filter_eq_self.mpr ?_
  intro a ha
  simp [word_not_combining (h a ha)]

theorem pyStrip_id {s : Str} (h : ∀ c ∈ s, isWordCh c = true) : pyStrip s = s := by
  unfold pyStrip dropTrailing
  rw [dropWhile_all_false (fun c hc => word_not_space (h c hc))]
  rw [dropWhile_all_false (fun c hc => word_not_space (h c (List.mem_reverse.mp hc)))]
  exact List.reverse_reverse s

theorem camel1F_id : ∀ (fuel : Nat) (s : Str),
    (∀ c ∈ s, isUpperAZ c = false) → camel1F fuel s = s := by
  intro fuel
  induction fuel with
  | zero => intro s _; rfl
  | succ fuel ih =>
    intro s h
    match s with
    | [] => rfl
    | [c] => rfl
    | c1 :: c2 :: rest =>
      have hup : isUpperAZ c2 = false := h c2 (List.mem_cons_of_mem _ (List.mem_cons_self _ _))
      show (if c1 != '\n' && isUpperAZ c2 && headIsLower rest then _ else
        c1 :: camel1F fuel (c2 :: rest)) = c1 :: c2 :: rest
      rw [if_neg (by simp [hup])]
      rw [ih (c2 :: rest) (fun c hc => h c (List.mem_cons_of_mem _ hc))]

theorem camel1_id {s : Str} (h : ∀ c ∈ s, isUpperAZ c = false) : camel1 s = s :=
  camel1F_id s.length s h

theorem camel2_id : ∀ (s : Str), (∀ c ∈ s, isUpperAZ c = false) → camel2 s = s := by
  intro s
  induction s with
  | nil => intro _; rfl
  | cons c1 rest ih =>
    intro h
    cases rest with
    | nil => rfl
    | cons c2 rest2 =>
      have hup : isUpperAZ c2 = false := h c2 (List.mem_cons_of_mem _ (List.mem_cons_self _ _))
      show (if (isLowerAZ c1 || isDigitCh c1) && isUpperAZ c2 then _ else
        c1 :: camel2 (c2 :: rest2)) = c1 :: c2 :: rest2
      rw [if_neg (by simp [hup])]
      rw [ih (fun c hc => h c (List.mem_cons_of_mem _ hc))]

theorem subRuns_cons_pos_false {p : Char → Bool} {c : Char} {rest : Str}
    (h : p c = true) : subRuns p false (c :: rest) = '_' :: subRuns p true rest := by
  simp [subRuns, h]

theorem subRuns_cons_pos_true {p : Char → Bool} {c : Char} {rest : Str}
    (h : p c = true) : subRuns p true (c :: rest) = subRuns p true rest := by
  simp [subRuns, h]

theorem subRuns_cons_neg (b : Bool) {p : Char → Bool} {c : Char} {rest : Str}
    (h : p c = false) : subRuns p b (c :: rest) = c :: subRuns p false rest := by
  simp [subRuns, h]

theorem subRuns_all_false {p : Char → Bool} :
    ∀ {s : Str}, (∀ c ∈ s, p c = false) → subRuns p false s = s := by
  intro s
  induction s with
  | nil => intro _; rfl
  | cons c rest ih =>
    intro h
    rw [subRuns_cons_neg false (h c (List.mem_cons_self _ _))]
    rw [ih (fun x hx => h x (List.mem_cons_of_mem _ hx))]

theorem subRuns_und_id : ∀ (s : Str), noDoubleUnd s = true →
    (subRuns isUndCh false s = s ∧
      (headIsUnd s = false → subRuns isUndCh true s = s)) := by
  intro s
  induction s with
  | nil => intro _; exact ⟨rfl, fun _ => rfl⟩
  | cons c rest ih =>
    intro h
    have hsplit : noDoubleUnd rest = true ∧ ((c == '_') = true → headIsUnd rest = false) := by
      cases rest with
      | nil => exact ⟨rfl, fun _ => rfl⟩
      | cons c2 r2 =>
        have h2 := h
        unfold noDoubleUnd at h2
        rw [Bool.and_eq_true] at h2
        refine ⟨h2.2, ?_⟩
        intro hc
        have h1 := h2.1
        simp only [hc, Bool.true_and, Bool.not_eq_true'] at h1
        exact h1
    obtain ⟨hrest, himp⟩ := hsplit
    have ihr := ih hrest
    by_cases hc : (c == '_') = true
    · have hcc : c = '_' := by simpa using hc
      have hpc : isUndCh c = true := by simp [isUndCh, hcc]
      constructor
      · rw [subRuns_cons_pos_false hpc, ihr.2 (himp hc), hcc]
      · intro hhead
        rw [show headIsUnd (c :: rest) = (c == '_') from rfl, hc] at hhead
        simp at hhead
    · have hcc : ¬(c = '_') := by simpa using hc
      have hpc : isUndCh c = false := by simp [isUndCh, hcc]
      constructor
      · rw [subRuns_cons_neg false hpc, ihr.1]
      · intro _
        rw [subRuns_cons_neg true hpc, ihr.1]

theorem stripUnd_id {s : Str} (hh : headIsUnd s = false) (hl : lastOk s = true) :
    stripUnd s = s := by
  unfold stripUnd dropTrailing
  have h1 : s.dropWhile isUndCh = s := by
    refine dropWhile_head_false ?_
    intro c hch
    cases s with
    | nil => simp at hch
    | cons c0 rest =>
      simp only [List.head?_cons, Option.some.injEq] at hch
      subst hch
      unfold headIsUnd at hh
      simp only [isUndCh]
      simpa using hh
  rw [h1]
  have h2 : s.reverse.dropWhile isUndCh = s.reverse := by
    refine dropWhile_head_false ?_
    intro c hch
    rw [List.head?_reverse] at hch
    unfold lastOk at hl
    rw [hch] at hl
    simp only [isUndCh]
    simpa using hl
  rw [h2]
  exact List.reverse_reverse s

theorem normalized_ne_nil {s : Str} (hn : Normalized s) : s ≠ [] := by
  intro he
  subst he
  have := hn.2.1
  simp [headOk] at this

/-- `to_snake` leaves an already-normalized label unchanged. -/
theorem to_snake_id (dp : Str) {s : Str} (hn : Normalized s) : to_snake dp s = s := by
  obtain ⟨hw, hh, hl, hd⟩ := hn
  have hupper : ∀ c ∈ s, isUpperAZ c = false := fun c hc => word_not_upper (hw c hc)
  have hhu : headIsUnd s = false := by
    cases s with
    | nil => rfl
    | cons c rest =>
      unfold headOk at hh
      unfold headIsUnd
      rw [Bool.and_eq_true] at hh
      simpa using hh.2
  have hne : s ≠ [] := by
    intro he
    subst he
    simp [headOk] at hh
  simp only [to_snake]
  rw [deaccent_id hw, pyStrip_id hw, camel1_id hupper, camel2_id s hupper,
    map_id_on (fun c hc => word_replCh (hw c hc)),
    subRuns_all_false (fun c hc => word_not_space (hw c hc)),
    map_id_on (fun c hc => word_lowerCh (hw c hc)),
    List.filter_eq_self.mpr hw,
    (subRuns_und_id s hd).1,
    stripUnd_id hhu hl,
    if_neg hne]
  cases s with
  | nil => exact absurd rfl hne
  | cons c rest =>
    show (if isDigitCh c then dp ++ (c :: rest) else c :: rest) = c :: rest
    unfold headOk at hh
    rw [Bool.and_eq_true] at hh
    rw [if_neg]
    simpa using hh.1

theorem resolveReserved_of_not_mem {rv : List Str} {cs s : Str} (h : s ∉ rv) :
    resolveReserved rv cs s = s := by
  show (if s ∈ rv then resolveReservedGo rv cs rv.length (s ++ cs) else s) = s
  rw [if_neg h]

theorem shorten_id {mx : Option Nat} {s : Str}
    (h : ∀ m, mx = some m → s.length ≤ m) : shorten mx s 0 = s := by
  cases mx with
  | none => rfl
  | some m =>
    show (if s.length ≤ m then s else s.take (max 1 (m - 0))) = s
    rw [if_pos (h m rfl)]

theorem keysOf_append (a b : List (Str × Str)) :
    keysOf (a ++ b) = keysOf a ++ keysOf b := List.map_append _ _ _

theorem foldl_clean_normalized (dp cs : Str) (mx : Option Nat) (er : List Str) :
    ∀ (labels : List Str) (st : CleanState),
      labels.Nodup →
      (∀ l ∈ labels, Normalized l) →
      (∀ l ∈ labels, l ∉ reservedList er) →
      (∀ l ∈ labels, ∀ m, mx = some m → l.length ≤ m) →
      (∀ l ∈ labels, l ∉ st.used) →
      (∀ l ∈ labels, l ∉ keysOf st.mapping) →
      (labels.foldl (cleanStep (reservedList er) cs dp mx) st).mapping
        = st.mapping ++ labels.map (fun l => (l, l)) ∧
      (∀ x, x ∈ (labels.foldl (cleanStep (reservedList er) cs dp mx) st).used ↔
        x ∈ st.used ∨ x ∈ labels) := by
  intro labels
  induction labels with
  | nil =>
    intro st _ _ _ _ _ _
    constructor
    · simp
    · intro x
      simp
  | cons l ls ih =>
    intro st hnd hnorm hres hlen hused hkeys
    rw [List.nodup_cons] at hnd
    have hlmem : l ∈ l :: ls := List.mem_cons_self _ _
    have hstep : cleanStep (reservedList er) cs dp mx st l =
        { mapping := updAssoc st.mapping l l, used := l :: st.used } := by
      rw [cleanStep_eq]
      rw [to_snake_id dp (hnorm l hlmem)]
      rw [resolveReserved_of_not_mem (hres l hlmem)]
      rw [shorten_id (hlen l hlmem)]
      rw [resolveUnique_of_not_mem _ _ _ (hused l hlmem)]
    have hfreshkey : hasKey st.mapping l = false := by
      cases hk : hasKey st.mapping l with
      | false => rfl
      | true => exact absurd (hasKey_iff_mem.mp hk) (hkeys l hlmem)
    have hupd : updAssoc st.mapping l l = st.mapping ++ [(l, l)] :=
      updAssoc_append_fresh l hfreshkey
    rw [List.foldl_cons, hstep, hupd]
    have hcall := ih ⟨st.mapping ++ [(l, l)], l :: st.used⟩ hnd.2
      (fun x hx => hnorm x (List.mem_cons_of_mem _ hx))
      (fun x hx => hres x (List.mem_cons_of_mem _ hx))
      (fun x hx => hlen x (List.mem_cons_of_mem _ hx))
      (by
        intro x hx hmem
        rcases List.mem_cons.mp hmem with hmem | hmem
        · exact hnd.1 (hmem ▸ hx)
        · exact hused x (List.mem_cons_of_mem _ hx) hmem)
      (by
        intro x hx hmem
        rw [keysOf_append] at hmem
        rcases List.mem_append.mp hmem with hmem | hmem
        · exact hkeys x (List.mem_cons_of_mem _ hx) hmem
        · simp only [keysOf, List.map_cons, List.map_nil, List.mem_singleton] at hmem
          exact hnd.1 (hmem ▸ hx))
    constructor
    · rw [hcall.1, List.append_assoc]
      rfl
    · intro x
      rw [hcall.2 x]
      simp only [List.mem_cons]
      tauto

theorem lookup_map_pair : ∀ (ls : List Str) (l : Str), l ∈ ls →
    lookupAssoc (ls.map (fun x => (x, x))) l = some l := by
  intro ls
  induction ls with
  | nil => intro l hl; simp at hl
  | cons c cr ih =>
    intro l hl
    by_cases hc : c = l
    · subst hc
      rw [List.map_cons]
      exact lookupAssoc_cons_self c c _
    · rw [List.map_cons, lookupAssoc_cons_ne c _ hc]
      rcases List.mem_cons.mp hl with hl | hl
      · exact absurd hl.symm hc
      · exact ih l hl

/-- C9: `clean_columns` is the identity on already-normalized inputs.  For
pairwise-distinct labels that are nonempty strings over `[a-z0-9_]` with
no leading digit, no leading, trailing or repeated underscore, that avoid
the reserved set (default plus `extra_reserved`) and respect `max_len`
when it is set, `clean_columns` with no overrides maps every label to
itself: the mapping is the identity on the labels and the returned table
has the original labels unchanged. -/
theorem clean_columns_idempotent (labels : List Str) (dp cs : Str)
    (mx : Option Nat) (er : List Str)
    (hnd : labels.Nodup)
    (hnorm : ∀ l ∈ labels, Normalized l)
    (hres : ∀ l ∈ labels, l ∉ reservedList er)
    (hlen : ∀ l ∈ labels, ∀ m, mx = some m → l.length ≤ m) :
    (clean_columns labels [] dp cs mx er).mapping = labels.map (fun l => (l, l)) ∧
    (clean_columns labels [] dp cs mx er).table = labels := by
  have hfold := foldl_clean_normalized dp cs mx er labels ⟨[], []⟩ hnd hnorm hres hlen
    (by intro l _ hm; simp at hm)
    (by intro l _ hm; simp [keysOf] at hm)
  have hbpm : (basePass labels dp cs mx er).mapping = labels.map (fun l => (l, l)) := by
    unfold basePass
    rw [hfold.1]
    rfl
  constructor
  · rw [clean_columns_mapping_eq]
    have hom : (overridePass labels [] dp cs mx er).mapping =
        (basePass labels dp cs mx er).mapping := rfl
    rw [hom, hbpm]
  · rw [clean_columns_table_eq]
    have hco : (overridePass labels [] dp cs mx er).cleanedOver = [] := rfl
    rw [hco]
    have ht1 : labels.map (fun l =>
        (lookupAssoc (basePass labels dp cs mx er).mapping l).getD l) = labels := by
      rw [hbpm]
      have hcong : ∀ l ∈ labels,
          (lookupAssoc (labels.map (fun x => (x, x))) l).getD l = l := by
        intro l hl
        rw [lookup_map_pair labels l hl]
        rfl
      rw [List.map_congr_left hcong]
      simp
    rw [ht1]
    have hcong2 : ∀ l ∈ labels, (lookupAssoc [] l).getD l = l := by
      intro l _
      rfl
    rw [List.map_congr_left hcong2]
    simp

/-- Witness for C9: the normalized, distinct labels `["user_id", "name2"]`
pass through `clean_columns` unchanged. -/
theorem clean_columns_idempotent_witness :
    (clean_columns ["user_id".data, "name2".data] [] "col_".data "_col".data
      none []).mapping =
      [("user_id".data, "user_id".data), ("name2".data, "name2".data)] ∧
    (clean_columns ["user_id".data, "name2".data] [] "col_".data "_col".data
      none []).table = ["user_id".data, "name2".data] := by
  have h := clean_columns_idempotent ["user_id".data, "name2".data]
    "col_".data "_col".data none [] (by decide) (by decide) (by decide)
    (fun l _ m hm => Option.noConfusion hm)
  exact ⟨by rw [h.1]; rfl, h.2⟩
